import Mathlib

/-!
Verification of the SECS-II / HSMS / GEM driver (secsgem.py).

This file shallowly embeds the parts of the driver that the checked claims
are about:

* the SECS-II item-header codec (`SecsVar.encode_item_header`,
  `SecsVar.decode_item_header`),
* the variable codec (`SecsVarList`, `SecsVarArray`, `SecsVarBinary`,
  `SecsVarBoolean`, `SecsVarString`, `SecsVarNumber` with its eight
  fixed-width integer subclasses) together with `set`, `encode` and `decode`,
* the HSMS handler's packet dispatch and request/response correlation
  (`HsmsHandler.on_connection_packet_received`,
  `HsmsHandler.send_and_waitfor_response`, `HsmsRejectReqHeader`),
* the GEM communication state machine (`GemHandler._on_hsms_packet_received`),
* the equipment-constant write handler (`GemEquipmentHandler._on_s02f15`).

Bytes are modelled as natural numbers below 256 in a `List Nat`; Python
integers are `Int`; fallible operations return `Option`.
-/

namespace Secsgem

/-! ## Byte-level helpers -/

/-- Big-endian byte string of width `w` for the natural number `n`
(the low `8 * w` bits of `n`, most significant byte first). -/
def natToBytesBE : Nat → Nat → List Nat
  | 0, _ => []
  | w + 1, n => natToBytesBE w (n / 256) ++ [n % 256]

/-- Fold a big-endian byte string back into a natural number, starting from
an accumulator (models the decoder's `length <<= 8; length += byte` loop). -/
def bytesToNatBE (acc : Nat) (bs : List Nat) : Nat :=
  bs.foldl (fun a b => a * 256 + b) acc

theorem natToBytesBE_length (w n : Nat) : (natToBytesBE w n).length = w := by
  induction w generalizing n with
  | zero => rfl
  | succ w ih => simp [natToBytesBE, ih]

theorem bytesToNatBE_append (acc : Nat) (xs ys : List Nat) :
    bytesToNatBE acc (xs ++ ys) = bytesToNatBE (bytesToNatBE acc xs) ys := by
  simp [bytesToNatBE, List.foldl_append]

theorem bytesToNatBE_natToBytesBE (w n acc : Nat) :
    bytesToNatBE acc (natToBytesBE w n) = acc * 256 ^ w + n % 256 ^ w := by
  induction w generalizing n acc with
  | zero => simp [natToBytesBE, bytesToNatBE, Nat.mod_one]
  | succ w ih =>
      rw [natToBytesBE, bytesToNatBE_append, ih]
      simp only [bytesToNatBE, List.foldl_cons, List.foldl_nil]
      have hq : 256 ^ (w + 1) = 256 * 256 ^ w := by ring
      rw [hq]
      have hmul : n % (256 * 256 ^ w) = n % 256 + 256 * (n / 256 % 256 ^ w) :=
        Nat.mod_mul
      have hacc : acc * (256 * 256 ^ w) = acc * 256 ^ w * 256 := by ring
      rw [hmul, hacc]
      omega

theorem natToBytesBE_lt (w n : Nat) : ∀ b ∈ natToBytesBE w n, b < 256 := by
  induction w generalizing n with
  | zero => simp [natToBytesBE]
  | succ w ih =>
      intro b hb
      rw [natToBytesBE] at hb
      rcases List.mem_append.1 hb with h | h
      · exact ih _ b h
      · simp at h; omega

/-! ## Item header codec

Source: `SecsVar.encode_item_header` (secsgem.py lines 524-552) and
`SecsVar.decode_item_header` (lines 554-588).  The source's
`(length & 0xFF0000) >> 16`, `(length & 0x00FF00) >> 8` and
`length & 0x0000FF` byte extractions are written as `/ 65536 % 256`,
`/ 256 % 256` and `% 256`; `(formatCode << 2) | lengthBytes` is written
`formatCode * 4 + lengthBytes` (the low two bits are clear). -/

/-- Encoding of `SecsVar.encode_item_header`: `none` models the two
`ValueError` raises for a negative or an over-large payload length. -/
def encode_item_header (formatCode : Nat) (length : Int) : Option (List Nat) :=
  if length < 0 then none
  else if length > 0xFFFFFF then none
  else if length.toNat > 0xFFFF then
    some [formatCode * 4 + 3, length.toNat / 65536 % 256,
      length.toNat / 256 % 256, length.toNat % 256]
  else if length.toNat > 0xFF then
    some [formatCode * 4 + 2, length.toNat / 256 % 256, length.toNat % 256]
  else
    some [formatCode * 4 + 1, length.toNat % 256]

/-- Loop of `SecsVar.decode_item_header` reading `lengthBytes` length bytes;
`none` models an `IndexError` on truncated data. -/
def readLengthBytes (data : List Nat) : Nat → Nat → Nat → Option (Nat × Nat)
  | pos, 0, acc => some (pos, acc)
  | pos, k + 1, acc => do
      let b ← data[pos]?
      readLengthBytes data (pos + 1) k (acc * 256 + b)

/-- Decoding of `SecsVar.decode_item_header`; `selfFormatCode` is the
variant's fixed format code (`-1` on the untyped base class).  Returns
`(next position, format code, length)`. -/
def decode_item_header (selfFormatCode : Int) (data : List Nat) (textPos : Nat) :
    Option (Nat × Nat × Nat) :=
  if data.length = 0 then none
  else do
    let formatByte ← data[textPos]?
    let formatCode := formatByte / 4
    let lengthBytes := formatByte % 4
    let (pos, length) ← readLengthBytes data (textPos + 1) lengthBytes 0
    if 0 ≤ selfFormatCode ∧ selfFormatCode ≠ (formatCode : Int) then none
    else some (pos, formatCode, length)

theorem getElem?_append_cons {α : Type} (pre : List α) (x : α) (rest : List α) :
    (pre ++ x :: rest)[pre.length]? = some x := by
  rw [List.getElem?_append_right (Nat.le_refl _)]
  simp

theorem readLengthBytes_spec (pre mid suf : List Nat) (acc : Nat) :
    readLengthBytes (pre ++ mid ++ suf) pre.length mid.length acc =
      some (pre.length + mid.length, bytesToNatBE acc mid) := by
  induction mid generalizing pre acc with
  | nil => simp [readLengthBytes, bytesToNatBE]
  | cons b rest ih =>
      rw [List.length_cons, readLengthBytes]
      have hb : (pre ++ (b :: rest) ++ suf)[pre.length]? = some b := by
        rw [List.append_assoc]
        exact getElem?_append_cons pre b (rest ++ suf)
      rw [hb]
      simp only [Option.bind_eq_bind, Option.some_bind]
      have hstep := ih (pre ++ [b]) (acc * 256 + b)
      simp only [List.append_assoc, List.singleton_append, List.length_append,
        List.length_singleton] at hstep ⊢
      rw [hstep]
      have hfold : bytesToNatBE acc (b :: rest) = bytesToNatBE (acc * 256 + b) rest := by
        simp [bytesToNatBE]
      rw [hfold]
      congr 2
      omega

/-- Round-trip of the item header: a header encoded for payload length
`l ≤ 0xFFFFFF` decodes back to `l` (and the variant's format code) at any
position in a larger byte string, consuming exactly the header bytes. -/
theorem decode_encode_item_header (fc : Nat) (l : Nat) (hl : l ≤ 0xFFFFFF)
    (hb : List Nat) (henc : encode_item_header fc (l : Int) = some hb)
    (pre suf : List Nat) :
    decode_item_header (fc : Int) (pre ++ hb ++ suf) pre.length =
      some (pre.length + hb.length, fc, l) := by
  have hfb : ∀ n, 1 ≤ n → n ≤ 3 →
      hb = (fc * 4 + n) :: natToBytesBE n l → l < 256 ^ n →
      decode_item_header (fc : Int) (pre ++ hb ++ suf) pre.length =
        some (pre.length + hb.length, fc, l) := by
    intro n h1 h3 hshape hlt
    subst hshape
    rw [decode_item_header]
    have hne : (pre ++ ((fc * 4 + n) :: natToBytesBE n l) ++ suf).length ≠ 0 := by
      simp
    rw [if_neg hne]
    have hhead : (pre ++ ((fc * 4 + n) :: natToBytesBE n l) ++ suf)[pre.length]? =
        some (fc * 4 + n) := by
      rw [List.append_assoc]
      exact getElem?_append_cons pre _ _
    rw [hhead]
    have hdiv : (fc * 4 + n) / 4 = fc := by omega
    have hmod : (fc * 4 + n) % 4 = n := by omega
    simp only [Option.bind_eq_bind, Option.some_bind, hdiv, hmod]
    have hread := readLengthBytes_spec (pre ++ [fc * 4 + n]) (natToBytesBE n l) suf 0
    simp only [List.append_assoc, List.cons_append, List.nil_append,
      List.singleton_append, List.length_append, List.length_singleton,
      natToBytesBE_length] at hread
    simp only [List.append_assoc, List.cons_append]
    rw [hread]
    simp only [Option.some_bind]
    rw [bytesToNatBE_natToBytesBE]
    rw [Nat.mod_eq_of_lt hlt]
    have hfmt : ¬(0 ≤ (fc : Int) ∧ (fc : Int) ≠ ((fc : Nat) : Int)) := by
      simp
    rw [if_neg hfmt]
    simp only [Option.some.injEq, Prod.mk.injEq, List.length_cons,
      natToBytesBE_length]
    exact ⟨by omega, trivial, by omega⟩
  rw [encode_item_header] at henc
  have h0 : ¬((l : Int) < 0) := by omega
  have h1 : ¬((l : Int) > 0xFFFFFF) := by omega
  rw [if_neg h0, if_neg h1] at henc
  simp only [Int.toNat_ofNat, Int.toNat_natCast] at henc
  by_cases hc3 : l > 0xFFFF
  · rw [if_pos hc3] at henc
    refine hfb 3 (by omega) (by omega) ?_ (by omega)
    have hby : natToBytesBE 3 l = [l / 65536 % 256, l / 256 % 256, l % 256] := by
      simp [natToBytesBE, Nat.div_div_eq_div_mul]
    rw [hby]
    exact (Option.some.injEq _ _ ▸ henc).symm
  · rw [if_neg hc3] at henc
    by_cases hc2 : l > 0xFF
    · rw [if_pos hc2] at henc
      refine hfb 2 (by omega) (by omega) ?_ (by omega)
      have hby : natToBytesBE 2 l = [l / 256 % 256, l % 256] := by
        simp [natToBytesBE]
      rw [hby]
      exact (Option.some.injEq _ _ ▸ henc).symm
    · rw [if_neg hc2] at henc
      refine hfb 1 (by omega) (by omega) ?_ (by omega)
      have hby : natToBytesBE 1 l = [l % 256] := by simp [natToBytesBE]
      rw [hby]
      exact (Option.some.injEq _ _ ▸ henc).symm

/-- C2: item-header encoding fails exactly for `L < 0` or `L > 0xFFFFFF`;
otherwise it picks the smallest `n ∈ {1,2,3}` with `L < 2^(8n)` and emits
`(format_code << 2) | n` followed by the `n` big-endian length bytes; payload
lengths 255, 256, 65535, 65536 and 16777215 select `n` = 1, 2, 2, 3, 3. -/
theorem encode_item_header_spec (fc : Nat) (L : Int) :
    (encode_item_header fc L = none ↔ (L < 0 ∨ L > 0xFFFFFF))
    ∧ (0 ≤ L → L ≤ 0xFFFFFF →
        ∃ n, 1 ≤ n ∧ n ≤ 3 ∧ L.toNat < 2 ^ (8 * n) ∧
          (∀ m, 1 ≤ m → L.toNat < 2 ^ (8 * m) → n ≤ m) ∧
          encode_item_header fc L =
            some ((fc * 4 + n) :: natToBytesBE n L.toNat))
    ∧ (∀ l : Nat, l ≤ 0xFFFFFF →
        (encode_item_header fc (l : Int)).map List.length =
          some (1 + (if l > 0xFFFF then 3 else if l > 0xFF then 2 else 1)))
    ∧ ((encode_item_header fc 255).map List.length = some 2
        ∧ (encode_item_header fc 256).map List.length = some 3
        ∧ (encode_item_header fc 65535).map List.length = some 3
        ∧ (encode_item_header fc 65536).map List.length = some 4
        ∧ (encode_item_header fc 16777215).map List.length = some 4) := by
  refine ⟨?_, ?_, ?_, ?_⟩
  · constructor
    · intro h
      by_contra hcon
      push_neg at hcon
      rw [encode_item_header, if_neg (by omega), if_neg (by omega)] at h
      split at h <;> [simp_all; skip]
      split at h <;> simp_all
    · intro h
      rcases h with h | h <;> rw [encode_item_header]
      · rw [if_pos h]
      · rw [if_neg (by omega), if_pos h]
  · intro h0 h1
    rw [encode_item_header, if_neg (by omega), if_neg (by omega)]
    have hl1 : L.toNat ≤ 0xFFFFFF := by omega
    by_cases hc3 : L.toNat > 0xFFFF
    · refine ⟨3, by omega, by omega, by norm_num; omega, ?_, ?_⟩
      · intro m hm hlt
        by_contra hcon
        interval_cases m <;> norm_num at hlt <;> omega
      · rw [if_pos hc3]
        have hby : natToBytesBE 3 L.toNat =
            [L.toNat / 65536 % 256, L.toNat / 256 % 256, L.toNat % 256] := by
          simp [natToBytesBE, Nat.div_div_eq_div_mul]
        rw [hby]
    · by_cases hc2 : L.toNat > 0xFF
      · refine ⟨2, by omega, by omega, by norm_num; omega, ?_, ?_⟩
        · intro m hm hlt
          by_contra hcon
          interval_cases m <;> norm_num at hlt <;> omega
        · rw [if_neg hc3, if_pos hc2]
          have hby : natToBytesBE 2 L.toNat = [L.toNat / 256 % 256, L.toNat % 256] := by
            simp [natToBytesBE]
          rw [hby]
      · refine ⟨1, by omega, by omega, by norm_num; omega, ?_, ?_⟩
        · intro m hm hlt; omega
        · rw [if_neg hc3, if_neg hc2]
          have hby : natToBytesBE 1 L.toNat = [L.toNat % 256] := by simp [natToBytesBE]
          rw [hby]
  · intro l hl
    rw [encode_item_header, if_neg (by omega), if_neg (by omega)]
    simp only [Int.toNat_natCast]
    by_cases hc3 : l > 0xFFFF
    · simp [hc3]
    · by_cases hc2 : l > 0xFF
      · simp [hc3, hc2]
      · simp [hc3, hc2]
  · refine ⟨?_, ?_, ?_, ?_, ?_⟩ <;> (rw [encode_item_header]; norm_num)

/-- Witness for `encode_item_header_spec` at `fc = 25`, `L = 256`: the
smallest admissible byte count is 2 and the emitted header is
`[25*4+2, 1, 0]`. -/
theorem encode_item_header_spec_witness :
    (0 ≤ (256 : Int) ∧ (256 : Int) ≤ 0xFFFFFF) ∧
    ∃ n, 1 ≤ n ∧ n ≤ 3 ∧ (256 : Int).toNat < 2 ^ (8 * n) ∧
      (∀ m, 1 ≤ m → (256 : Int).toNat < 2 ^ (8 * m) → n ≤ m) ∧
      encode_item_header 25 256 =
        some ((25 * 4 + n) :: natToBytesBE n (256 : Int).toNat) :=
  ⟨⟨by decide, by decide⟩,
    (encode_item_header_spec 25 256).2.1 (by decide) (by decide)⟩

/-! ## Fixed-width numeric variants

Source: classes `SecsVarI8`, `SecsVarI1`, `SecsVarI2`, `SecsVarI4`,
`SecsVarU8`, `SecsVarU1`, `SecsVarU2`, `SecsVarU4` (secsgem.py lines
2145-2340), each fixing `formatCode`, `_basetype = int`, `_min`, `_max`,
`_bytes` and a struct code. -/

inductive NumTy where
  | i8 | i1 | i2 | i4 | u8 | u1 | u2 | u4
deriving DecidableEq

/-- The `formatCode` class constants (octal in the source: I8 = 0o30, I1 =
0o31, I2 = 0o32, I4 = 0o34, U8 = 0o50, U1 = 0o51, U2 = 0o52, U4 = 0o54). -/
def NumTy.formatCode : NumTy → Nat
  | .i8 => 24
  | .i1 => 25
  | .i2 => 26
  | .i4 => 28
  | .u8 => 40
  | .u1 => 41
  | .u2 => 42
  | .u4 => 44

/-- The `_bytes` class constants. -/
def NumTy.bytes : NumTy → Nat
  | .i8 => 8
  | .i1 => 1
  | .i2 => 2
  | .i4 => 4
  | .u8 => 8
  | .u1 => 1
  | .u2 => 2
  | .u4 => 4

/-- Whether the variant's struct code (`q/b/h/l` vs `Q/B/H/L`) is signed. -/
def NumTy.signed : NumTy → Bool
  | .i8 => true
  | .i1 => true
  | .i2 => true
  | .i4 => true
  | .u8 => false
  | .u1 => false
  | .u2 => false
  | .u4 => false

/-- The `_min` class constants. -/
def NumTy.minValue : NumTy → Int
  | .i8 => -9223372036854775808
  | .i1 => -128
  | .i2 => -32768
  | .i4 => -2147483648
  | .u8 => 0
  | .u1 => 0
  | .u2 => 0
  | .u4 => 0

/-- The `_max` class constants. -/
def NumTy.maxValue : NumTy → Int
  | .i8 => 9223372036854775807
  | .i1 => 127
  | .i2 => 32767
  | .i4 => 2147483647
  | .u8 => 18446744073709551615
  | .u1 => 255
  | .u2 => 65535
  | .u4 => 4294967295

/-- Scalar branch (the final `else`) of `SecsVarNumber.set` (lines
2076-2082): `int(value)` is the identity on an integer, the range check
raises `ValueError`, and on success the stored value is the one-element
list `[new_value]`. -/
def numberSetScalar (ty : NumTy) (x : Int) : Option (List Int) :=
  if x < ty.minValue ∨ x > ty.maxValue then none
  else some [x]

/-- List branch of `SecsVarNumber.set` (lines 2054-2065): the `count`
bound check (`0 <= self.count < len(value)`), then per item the identity
`int` conversion and the range check. -/
def numberSetList (ty : NumTy) (count : Int) (xs : List Int) : Option (List Int) :=
  if 0 ≤ count ∧ count < (xs.length : Int) then none
  else if xs.any (fun x => decide (x < ty.minValue) || decide (x > ty.maxValue)) then none
  else some xs

/-- Encoding of one element with `struct.pack(">q/b/h/l/Q/B/H/L", x)`:
big-endian two's complement of width `_bytes`; `struct.error` (modelled as
`none`) exactly when `x` is outside the struct code's range, which for
every variant coincides with `[_min, _max]`. -/
def packNumber (ty : NumTy) (x : Int) : Option (List Nat) :=
  if x < ty.minValue ∨ x > ty.maxValue then none
  else some (natToBytesBE ty.bytes (x.emod (2 ^ (8 * ty.bytes))).toNat)

/-- Decoding of one element with `struct.unpack`: fold the big-endian
bytes and, for a signed struct code, subtract `2^(8*_bytes)` when the
sign bit is set. -/
def unpackNumber (ty : NumTy) (bs : List Nat) : Int :=
  if ty.signed = true ∧ 2 ^ (8 * ty.bytes - 1) ≤ bytesToNatBE 0 bs then
    (bytesToNatBE 0 bs : Int) - 2 ^ (8 * ty.bytes)
  else (bytesToNatBE 0 bs : Int)

theorem bytesToNatBE_natToBytesBE_zero (w m : Nat) :
    bytesToNatBE 0 (natToBytesBE w m) = m % 256 ^ w := by
  rw [bytesToNatBE_natToBytesBE]
  omega

theorem pow256_eq_pow2 (w : Nat) : (256 : Nat) ^ w = 2 ^ (8 * w) := by
  rw [pow_mul]
  norm_num

theorem unpack_pack_unsigned (w : Nat) (x : Int) (h0 : 0 ≤ x)
    (hhi : x < 2 ^ (8 * w)) :
    (bytesToNatBE 0 (natToBytesBE w (x.emod (2 ^ (8 * w))).toNat) : Int) = x := by
  have hemod : x.emod (2 ^ (8 * w)) = x := Int.emod_eq_of_lt h0 hhi
  rw [bytesToNatBE_natToBytesBE_zero, pow256_eq_pow2, hemod]
  have hc : ((2 ^ (8 * w) : Nat) : Int) = 2 ^ (8 * w) := by push_cast; ring
  have hxlt : x.toNat < 2 ^ (8 * w) := by omega
  rw [Nat.mod_eq_of_lt hxlt]
  omega

theorem unpack_pack_signed (w k : Nat) (hw : 8 * w = k + 1) (x : Int)
    (hlo : -(2 ^ k) ≤ x) (hhi : x < 2 ^ k) :
    (if 2 ^ (8 * w - 1) ≤ bytesToNatBE 0 (natToBytesBE w (x.emod (2 ^ (8 * w))).toNat)
     then (bytesToNatBE 0 (natToBytesBE w (x.emod (2 ^ (8 * w))).toNat) : Int) -
       2 ^ (8 * w)
     else (bytesToNatBE 0 (natToBytesBE w (x.emod (2 ^ (8 * w))).toNat) : Int)) = x := by
  rw [bytesToNatBE_natToBytesBE_zero, pow256_eq_pow2, hw]
  simp only [Nat.add_sub_cancel]
  have hcast1 : ((2 ^ (k + 1) : Nat) : Int) = 2 ^ (k + 1) := by push_cast; ring
  have hcast2 : ((2 ^ k : Nat) : Int) = 2 ^ k := by push_cast; ring
  have hpow : (2 : Int) ^ (k + 1) = 2 * 2 ^ k := by rw [pow_succ]; ring
  have hpown : (2 : Nat) ^ (k + 1) = 2 * 2 ^ k := by rw [pow_succ]; ring
  have hNpos : (0 : Int) < 2 ^ (k + 1) := by positivity
  have hm0 : (0 : Int) ≤ x.emod (2 ^ (k + 1)) := Int.emod_nonneg x (by omega)
  have hmlt : x.emod (2 ^ (k + 1)) < 2 ^ (k + 1) := Int.emod_lt_of_pos x hNpos
  have hmod : (x.emod (2 ^ (k + 1))).toNat % 2 ^ (k + 1) =
      (x.emod (2 ^ (k + 1))).toNat :=
    Nat.mod_eq_of_lt (by omega)
  rw [hmod]
  by_cases hneg : x < 0
  · have hadd : (x + 2 ^ (k + 1)).emod (2 ^ (k + 1)) = x.emod (2 ^ (k + 1)) := by
      have hone : x + 2 ^ (k + 1) = x + 2 ^ (k + 1) * 1 := by ring
      rw [hone]
      exact Int.add_mul_emod_self_left x (2 ^ (k + 1)) 1
    have hval : (x + 2 ^ (k + 1)).emod (2 ^ (k + 1)) = x + 2 ^ (k + 1) :=
      Int.emod_eq_of_lt (by omega) (by omega)
    have hemod : x.emod (2 ^ (k + 1)) = x + 2 ^ (k + 1) := by omega
    rw [if_pos (by omega)]
    omega
  · have hemod : x.emod (2 ^ (k + 1)) = x := Int.emod_eq_of_lt (by omega) (by omega)
    rw [if_neg (by omega)]
    omega

theorem unpackNumber_packNumber (ty : NumTy) (x : Int) (bs : List Nat)
    (h : packNumber ty x = some bs) :
    unpackNumber ty bs = x ∧ bs.length = ty.bytes ∧ ∀ b ∈ bs, b < 256 := by
  rw [packNumber] at h
  split at h
  · exact absurd h (by simp)
  · rename_i hrange
    push_neg at hrange
    obtain ⟨hlo, hhi⟩ := hrange
    have hbs : bs = natToBytesBE ty.bytes (x.emod (2 ^ (8 * ty.bytes))).toNat :=
      (Option.some.injEq _ _ ▸ h).symm
    subst hbs
    refine ⟨?_, natToBytesBE_length _ _, fun b hb => natToBytesBE_lt _ _ b hb⟩
    rw [unpackNumber]
    cases ty
    all_goals simp only [NumTy.minValue, NumTy.maxValue, NumTy.bytes, NumTy.signed,
      eq_self_iff_true, true_and, Bool.false_eq_true, false_and, if_false] at hlo hhi ⊢
    · exact unpack_pack_signed 8 63 (by norm_num) x (by omega) (by omega)
    · exact unpack_pack_signed 1 7 (by norm_num) x (by omega) (by omega)
    · exact unpack_pack_signed 2 15 (by norm_num) x (by omega) (by omega)
    · exact unpack_pack_signed 4 31 (by norm_num) x (by omega) (by omega)
    · exact unpack_pack_unsigned 8 x (by omega) (by omega)
    · exact unpack_pack_unsigned 1 x (by omega) (by omega)
    · exact unpack_pack_unsigned 2 x (by omega) (by omega)
    · exact unpack_pack_unsigned 4 x (by omega) (by omega)

/-- C7: for every fixed-width integer variant and every integer `x`,
`set(x)` succeeds and stores `x` exactly when the variant's `_min ≤ x ≤
_max`, and fails with `ValueError` (modelled as `none`) otherwise. -/
theorem secsVarNumber_set_range (ty : NumTy) (x : Int) :
    (numberSetScalar ty x = some [x] ↔ ty.minValue ≤ x ∧ x ≤ ty.maxValue)
    ∧ (numberSetScalar ty x = none ↔ (x < ty.minValue ∨ x > ty.maxValue)) := by
  constructor
  · rw [numberSetScalar]
    constructor
    · intro h
      split at h
      · exact absurd h (by simp)
      · rename_i hr; push_neg at hr; exact hr
    · intro h
      rw [if_neg (by omega)]
  · rw [numberSetScalar]
    constructor
    · intro h
      split at h
      · rename_i hr; exact hr
      · exact absurd h (by simp)
    · intro h
      rw [if_pos h]

/-! ## SECS variables

Source: classes `SecsVarList` (lines 832-1079), `SecsVarArray` (1082-1271),
`SecsVarBinary` (1274-1474), `SecsVarBoolean` (1477-1692), `SecsVarString`
(a `SecsVarText` with latin-1 coding, 1695-1912) and `SecsVarNumber`
(1933-2142).  A named list keeps an ordered mapping from field name to
child; an array keeps the generated default item of its descriptor
(`SecsVar.generate(self.item_decriptor)`) plus its data; text values are
latin-1 strings, kept here as their byte sequences. -/

inductive SecsVar where
  | vlist (fields : List (String × SecsVar))
  | varray (count : Int) (descr : SecsVar) (data : List SecsVar)
  | vbinary (count : Int) (value : List Nat)
  | vboolean (count : Int) (value : List Bool)
  | vstring (count : Int) (value : List Nat)
  | vnumber (ty : NumTy) (count : Int) (value : List Int)

/-- List branch of `SecsVarBoolean.set` (lines 1613-1621):
`__convert_single_item` is the identity on booleans; the `count` bound
check (`0 <= self.count < len(value)`) raises `ValueError`. -/
def booleanSetList (count : Int) (xs : List Bool) : Option (List Bool) :=
  if 0 ≤ count ∧ count < (xs.length : Int) then none else some xs

/-- Byte-string branch of `SecsVarBinary.set` (lines 1405-1425): the
`count` bound check is `0 < self.count < len(value)`. -/
def binarySet (count : Int) (bs : List Nat) : Option (List Nat) :=
  if 0 < count ∧ count < (bs.length : Int) then none else some bs

/-- Text branch of `SecsVarText.set` (lines 1839-1849) under the latin-1
coding of `SecsVarString`: re-encoding a latin-1-decoded string always
succeeds, then the `count` bound check is `0 < self.count < len(value)`. -/
def stringSet (count : Int) (s : List Nat) : Option (List Nat) :=
  if 0 < count ∧ count < (s.length : Int) then none else some s

/-- struct.pack of all elements of a numeric value, concatenated in order
(the loop of `SecsVarNumber.encode`, lines 2105-2107). -/
def packAll (ty : NumTy) : List Int → Option (List Nat)
  | [] => some []
  | x :: xs => do
      let b ← packNumber ty x
      let rest ← packAll ty xs
      some (b ++ rest)

/-- Element-reading loop of `SecsVarNumber.decode` (lines 2126-2138):
slice `_bytes` bytes, fail (`ValueError`) when the slice is short, unpack,
advance. -/
def readNumbers (ty : NumTy) (data : List Nat) : Nat → Nat → Option (List Int × Nat)
  | pos, 0 => some ([], pos)
  | pos, k + 1 =>
      if ((data.drop pos).take ty.bytes).length ≠ ty.bytes then none
      else do
        let (rest, p) ← readNumbers ty data (pos + ty.bytes) k
        some (unpackNumber ty ((data.drop pos).take ty.bytes) :: rest, p)

/-- Byte-reading loop of `SecsVarBoolean.decode` (lines 1682-1688): each
byte indexes the data (an `IndexError` on truncated data is `none`); zero
decodes to `False`, anything else to `True`. -/
def readBooleans (data : List Nat) : Nat → Nat → Option (List Bool × Nat)
  | pos, 0 => some ([], pos)
  | pos, k + 1 => do
      let b ← data[pos]?
      let (rest, p) ← readBooleans data (pos + 1) k
      some ((b != 0) :: rest, p)

mutual

/-- Method `encode` of each variant: the item header for the variant's
format code and length (child count for lists and arrays, byte count for
binary/boolean/text, element count times `_bytes` for numbers), then the
body. -/
def encodeVar : SecsVar → Option (List Nat)
  | .vlist fields => do
      let hdr ← encode_item_header 0 (fields.length : Int)
      let body ← encodeFields fields
      some (hdr ++ body)
  | .varray _ _ data => do
      let hdr ← encode_item_header 0 (data.length : Int)
      let body ← encodeItems data
      some (hdr ++ body)
  | .vbinary _ v => do
      let hdr ← encode_item_header 8 (v.length : Int)
      some (hdr ++ v)
  | .vboolean _ v => do
      let hdr ← encode_item_header 9 (v.length : Int)
      some (hdr ++ v.map (fun b => if b then 1 else 0))
  | .vstring _ v => do
      let hdr ← encode_item_header 16 (v.length : Int)
      some (hdr ++ v)
  | .vnumber ty _ v => do
      let hdr ← encode_item_header ty.formatCode ((v.length * ty.bytes : Nat) : Int)
      let body ← packAll ty v
      some (hdr ++ body)
termination_by v => (sizeOf v, 0)

/-- Encoding loop of `SecsVarList.encode`: children in declaration order. -/
def encodeFields : List (String × SecsVar) → Option (List Nat)
  | [] => some []
  | (_, f) :: rest => do
      let b ← encodeVar f
      let bs ← encodeFields rest
      some (b ++ bs)
termination_by fs => (sizeOf fs, 0)

/-- Encoding loop of `SecsVarArray.encode`: items in order. -/
def encodeItems : List SecsVar → Option (List Nat)
  | [] => some []
  | it :: rest => do
      let b ← encodeVar it
      let bs ← encodeItems rest
      some (b ++ bs)
termination_by ds => (sizeOf ds, 0)

end

mutual

/-- Method `decode` of each variant, decoding in place into the receiver:
read the item header (checking the variant's format code), then the body.
A named list decodes into its first `length` declared children
(`SecsVarList.decode`, lines 1061-1079); an array regenerates each item
from its descriptor (`SecsVarArray.decode`, lines 1250-1271); binary
slices the data, setting only a non-empty result (lines 1453-1474); text
always sets the (possibly empty) decoded string (lines 1873-1894);
booleans and numbers read their elements and `set` the result list. -/
def decodeVar : SecsVar → List Nat → Nat → Option (SecsVar × Nat)
  | .vlist fields, data, pos => do
      let (p, _, length) ← decode_item_header 0 data pos
      let (fields2, p2) ← decodeFields fields length data p
      some (.vlist fields2, p2)
  | .varray c descr _, data, pos => do
      let (p, _, length) ← decode_item_header 0 data pos
      let (items, p2) ← decodeItems descr length data p
      some (.varray c descr items, p2)
  | .vbinary c v, data, pos => do
      let (p, _, length) ← decode_item_header 8 data pos
      if length > 0 then do
        let v2 ← binarySet c ((data.drop p).take length)
        some (.vbinary c v2, p + length)
      else some (.vbinary c v, p + length)
  | .vboolean c _, data, pos => do
      let (p, _, length) ← decode_item_header 9 data pos
      let (bools, p2) ← readBooleans data p length
      let v2 ← booleanSetList c bools
      some (.vboolean c v2, p2)
  | .vstring c _, data, pos => do
      let (p, _, length) ← decode_item_header 16 data pos
      let v2 ← stringSet c ((data.drop p).take length)
      some (.vstring c v2, p + length)
  | .vnumber ty c _, data, pos => do
      let (p, _, length) ← decode_item_header ty.formatCode data pos
      let (vals, p2) ← readNumbers ty data p (length / ty.bytes)
      let v2 ← numberSetList ty c vals
      some (.vnumber ty c v2, p2)
termination_by v _ _ => (sizeOf v, 0)

/-- Child loop of `SecsVarList.decode`: decode into the first `k` declared
children (an `IndexError` past the declared children is `none`); trailing
children are left as they are. -/
def decodeFields : List (String × SecsVar) → Nat → List Nat → Nat →
    Option (List (String × SecsVar) × Nat)
  | fs, 0, _, pos => some (fs, pos)
  | [], _ + 1, _, _ => none
  | (nm, f) :: rest, k + 1, data, pos => do
      let (f2, p) ← decodeVar f data pos
      let (rest2, p2) ← decodeFields rest k data p
      some ((nm, f2) :: rest2, p2)
termination_by fs k _ _ => (sizeOf fs, k + 1)

/-- Item loop of `SecsVarArray.decode`: `k` fresh items generated from the
descriptor, each decoded in sequence. -/
def decodeItems : SecsVar → Nat → List Nat → Nat → Option (List SecsVar × Nat)
  | _, 0, _, pos => some ([], pos)
  | descr, k + 1, data, pos => do
      let (item, p) ← decodeVar descr data pos
      let (rest, p2) ← decodeItems descr k data p
      some (item :: rest, p2)
termination_by d k _ _ => (sizeOf d, k + 1)

end

mutual

/-- Shape of a variable as freshly produced by `SecsVar.generate` from its
schema: all values empty, array data empty, counts and structure kept. -/
def defaultOf : SecsVar → SecsVar
  | .vlist fields => .vlist (defaultFields fields)
  | .varray c descr _ => .varray c descr []
  | .vbinary c _ => .vbinary c []
  | .vboolean c _ => .vboolean c []
  | .vstring c _ => .vstring c []
  | .vnumber ty c _ => .vnumber ty c []
termination_by v => (sizeOf v, 0)

/-- Freshly generated children of a named list. -/
def defaultFields : List (String × SecsVar) → List (String × SecsVar)
  | [] => []
  | (nm, f) :: rest => (nm, defaultOf f) :: defaultFields rest
termination_by fs => (sizeOf fs, 0)

end

mutual

/-- Validity of a variable's held value: numeric elements in the variant's
range, byte values actual bytes, `count` bounds respected (so `set` accepts
the value), payload lengths within the 3-byte header ceiling, and every
array item of the shape generated by the array's descriptor, the
descriptor itself being a freshly generated (default-shaped) item. -/
def Valid : SecsVar → Prop
  | .vlist fields => fields.length ≤ 0xFFFFFF ∧ ValidFields fields
  | .varray _ descr data =>
      data.length ≤ 0xFFFFFF ∧ defaultOf descr = descr ∧ ValidItems descr data
  | .vbinary c v =>
      v.length ≤ 0xFFFFFF ∧ ¬(0 < c ∧ c < (v.length : Int)) ∧ ∀ b ∈ v, b < 256
  | .vboolean c v => v.length ≤ 0xFFFFFF ∧ ¬(0 ≤ c ∧ c < (v.length : Int))
  | .vstring c v =>
      v.length ≤ 0xFFFFFF ∧ ¬(0 < c ∧ c < (v.length : Int)) ∧ ∀ b ∈ v, b < 256
  | .vnumber ty c v =>
      v.length * ty.bytes ≤ 0xFFFFFF ∧ ¬(0 ≤ c ∧ c < (v.length : Int)) ∧
        ∀ x ∈ v, ty.minValue ≤ x ∧ x ≤ ty.maxValue
termination_by v => (sizeOf v, 0)

/-- Validity of all children of a named list. -/
def ValidFields : List (String × SecsVar) → Prop
  | [] => True
  | (_, f) :: rest => Valid f ∧ ValidFields rest
termination_by fs => (sizeOf fs, 0)

/-- Validity of all items of an array: each item valid and of the shape
generated from the array's descriptor. -/
def ValidItems (descr : SecsVar) : List SecsVar → Prop
  | [] => True
  | it :: rest => Valid it ∧ defaultOf it = descr ∧ ValidItems descr rest
termination_by ds => (sizeOf ds, 0)

end

/-! ## Round-trip helper lemmas -/

theorem slice_at {α : Type} (pre b suf : List α) :
    ((pre ++ (b ++ suf)).drop pre.length).take b.length = b := by
  rw [List.drop_left, List.take_left]

theorem decode_encode_item_header_assoc (fc : Nat) (l : Nat) (hl : l ≤ 0xFFFFFF)
    (hb : List Nat) (henc : encode_item_header fc (l : Int) = some hb)
    (pre suf : List Nat) :
    decode_item_header (fc : Int) (pre ++ (hb ++ suf)) pre.length =
      some (pre.length + hb.length, fc, l) := by
  have h := decode_encode_item_header fc l hl hb henc pre suf
  rw [← List.append_assoc]
  exact h

theorem encode_item_header_le (fc : Nat) (l : Nat) (hb : List Nat)
    (h : encode_item_header fc (l : Int) = some hb) : l ≤ 0xFFFFFF := by
  by_contra hcon
  rw [encode_item_header, if_neg (by omega), if_pos (by omega)] at h
  exact absurd h (by simp)

theorem readNumbers_packAll (ty : NumTy) (xs : List Int) (bs : List Nat)
    (h : packAll ty xs = some bs) (pre suf : List Nat) :
    readNumbers ty (pre ++ (bs ++ suf)) pre.length xs.length =
      some (xs, pre.length + bs.length) ∧
    bs.length = xs.length * ty.bytes := by
  induction xs generalizing bs pre with
  | nil =>
      rw [packAll] at h
      have hbs : bs = [] := (Option.some.inj h).symm
      subst hbs
      simp [readNumbers]
  | cons x rest ih =>
      rw [packAll] at h
      simp only [Option.bind_eq_bind, Option.bind_eq_some, Option.some.injEq] at h
      obtain ⟨b, hb, brest, hbrest, hbs⟩ := h
      subst hbs
      obtain ⟨hval, hlen, -⟩ := unpackNumber_packNumber ty x b hb
      obtain ⟨hread, hlenrest⟩ := ih brest hbrest (pre ++ b)
      simp only [List.append_assoc, List.length_append] at hread
      have hmul : (rest.length + 1) * ty.bytes = rest.length * ty.bytes + ty.bytes := by
        ring
      refine ⟨?_, by simp only [List.length_append, List.length_cons, hmul]; omega⟩
      rw [List.length_cons, readNumbers]
      have hdata : pre ++ (b ++ brest ++ suf) = pre ++ (b ++ (brest ++ suf)) := by
        simp [List.append_assoc]
      rw [hdata]
      have hslice : ((pre ++ (b ++ (brest ++ suf))).drop pre.length).take ty.bytes = b := by
        have hs := slice_at pre b (brest ++ suf)
        rw [hlen] at hs
        exact hs
      rw [hslice]
      rw [if_neg (by simp [hlen])]
      rw [show pre.length + ty.bytes = pre.length + b.length by omega]
      rw [hread]
      simp only [Option.bind_eq_bind, Option.some_bind, Option.some.injEq,
        Prod.mk.injEq, List.cons.injEq, List.length_append]
      exact ⟨⟨hval, trivial⟩, by omega⟩

theorem readBooleans_spec (xs : List Bool) (pre suf : List Nat) :
    readBooleans (pre ++ (xs.map (fun b => if b then 1 else 0) ++ suf)) pre.length
      xs.length = some (xs, pre.length + xs.length) := by
  induction xs generalizing pre with
  | nil => simp [readBooleans]
  | cons b rest ih =>
      rw [List.map_cons, List.length_cons, readBooleans]
      have hb : (pre ++ ((if b then 1 else 0) :: (rest.map fun b => if b then 1 else 0)
          ++ suf))[pre.length]? = some (if b then 1 else 0) := by
        rw [List.cons_append]
        exact getElem?_append_cons pre _ _
      rw [List.cons_append] at hb ⊢
      rw [hb]
      simp only [Option.bind_eq_bind, Option.some_bind]
      have hstep := ih (pre ++ [if b then 1 else 0])
      simp only [List.append_assoc, List.singleton_append, List.length_append,
        List.length_singleton] at hstep
      rw [hstep]
      simp only [Option.some_bind, Option.some.injEq, Prod.mk.injEq,
        List.cons.injEq]
      refine ⟨⟨?_, trivial⟩, by omega⟩
      cases b <;> rfl

theorem decode_encode_item_header_fc (efc : Int) (fc : Nat) (hefc : efc = (fc : Int))
    (l : Nat) (hl : l ≤ 0xFFFFFF) (hb : List Nat)
    (henc : encode_item_header fc (l : Int) = some hb) (pre suf : List Nat) :
    decode_item_header efc (pre ++ (hb ++ suf)) pre.length =
      some (pre.length + hb.length, fc, l) := by
  subst hefc
  exact decode_encode_item_header_assoc fc l hl hb henc pre suf

/-- Pointwise relation between the children a decode starts from and the
children that were encoded: same names, each child either the encoded
child itself (decoding in place) or a freshly generated default. -/
def FieldsCompat : List (String × SecsVar) → List (String × SecsVar) → Prop
  | [], [] => True
  | (nmw, w) :: ws, (nmv, v) :: vs =>
      nmw = nmv ∧ (w = v ∨ w = defaultOf v) ∧ FieldsCompat ws vs
  | _, _ => False

theorem fieldsCompat_refl (fs : List (String × SecsVar)) : FieldsCompat fs fs := by
  induction fs with
  | nil => trivial
  | cons p rest ih =>
      obtain ⟨nm, f⟩ := p
      exact ⟨rfl, Or.inl rfl, ih⟩

theorem fieldsCompat_default (fs : List (String × SecsVar)) :
    FieldsCompat (defaultFields fs) fs := by
  induction fs with
  | nil => rw [defaultFields]; trivial
  | cons p rest ih =>
      obtain ⟨nm, f⟩ := p
      rw [defaultFields]
      exact ⟨rfl, Or.inr rfl, ih⟩

mutual

/-- Core round-trip: a valid variable's encoding decodes back to exactly
that variable at any position, consuming exactly the encoded bytes.  The
decode may start from the encoded variable itself or from its freshly
generated default shape. -/
theorem decodeVar_encodeVar (v w : SecsVar) (hv : Valid v)
    (hw : w = v ∨ w = defaultOf v) (bs : List Nat)
    (henc : encodeVar v = some bs) (pre suf : List Nat) :
    decodeVar w (pre ++ (bs ++ suf)) pre.length = some (v, pre.length + bs.length) := by
  match v with
  | .vlist fields =>
      simp only [Valid] at hv
      obtain ⟨hflen, hvfields⟩ := hv
      simp only [encodeVar, Option.bind_eq_bind, Option.bind_eq_some,
        Option.some.injEq] at henc
      obtain ⟨hdr, hhdr, body, hbody, hbs⟩ := henc
      subst hbs
      obtain ⟨wf, rfl, hcompat⟩ :
          ∃ wf, w = .vlist wf ∧ FieldsCompat wf fields := by
        rcases hw with rfl | hd
        · exact ⟨fields, rfl, fieldsCompat_refl fields⟩
        · rw [defaultOf] at hd
          exact ⟨defaultFields fields, hd, fieldsCompat_default fields⟩
      simp only [decodeVar, List.append_assoc]
      rw [decode_encode_item_header_fc 0 0 (by norm_num) fields.length hflen hdr hhdr
        pre (body ++ suf)]
      simp only [Option.bind_eq_bind, Option.some_bind]
      have hfs := decodeFields_encodeFields fields wf hvfields hcompat body hbody
        (pre ++ hdr) suf
      simp only [List.append_assoc, List.length_append] at hfs
      rw [hfs]
      simp only [Option.some_bind, Option.some.injEq, Prod.mk.injEq,
        List.length_append]
      exact ⟨trivial, by omega⟩
  | .varray c descr vdata =>
      simp only [Valid] at hv
      obtain ⟨hdlen, hddef, hvitems⟩ := hv
      simp only [encodeVar, Option.bind_eq_bind, Option.bind_eq_some,
        Option.some.injEq] at henc
      obtain ⟨hdr, hhdr, body, hbody, hbs⟩ := henc
      subst hbs
      obtain ⟨w0, rfl⟩ : ∃ w0, w = .varray c descr w0 := by
        rcases hw with rfl | hd
        · exact ⟨vdata, rfl⟩
        · rw [defaultOf] at hd
          exact ⟨[], hd⟩
      simp only [decodeVar, List.append_assoc]
      rw [decode_encode_item_header_fc 0 0 (by norm_num) vdata.length hdlen hdr hhdr
        pre (body ++ suf)]
      simp only [Option.bind_eq_bind, Option.some_bind]
      have his := decodeItems_encodeItems descr vdata hvitems body hbody
        (pre ++ hdr) suf
      simp only [List.append_assoc, List.length_append] at his
      rw [his]
      simp only [Option.some_bind, Option.some.injEq, Prod.mk.injEq,
        List.length_append]
      exact ⟨trivial, by omega⟩
  | .vbinary c val =>
      simp only [Valid] at hv
      obtain ⟨hlen, hcount, hbytes⟩ := hv
      simp only [encodeVar, Option.bind_eq_bind, Option.bind_eq_some,
        Option.some.injEq] at henc
      obtain ⟨hdr, hhdr, hbs⟩ := henc
      subst hbs
      obtain ⟨w0, rfl, hw0⟩ : ∃ w0, w = .vbinary c w0 ∧ (w0 = val ∨ w0 = []) := by
        rcases hw with rfl | hd
        · exact ⟨val, rfl, Or.inl rfl⟩
        · rw [defaultOf] at hd
          exact ⟨[], hd, Or.inr rfl⟩
      simp only [decodeVar, List.append_assoc]
      rw [decode_encode_item_header_fc 8 8 (by norm_num) val.length hlen hdr hhdr
        pre (val ++ suf)]
      simp only [Option.bind_eq_bind, Option.some_bind]
      by_cases hpos : val.length > 0
      · rw [if_pos hpos]
        have hslice : ((pre ++ (hdr ++ (val ++ suf))).drop (pre.length + hdr.length)).take
            val.length = val := by
          have hs := slice_at (pre ++ hdr) val suf
          simp only [List.append_assoc, List.length_append] at hs
          exact hs
        rw [hslice]
        rw [binarySet, if_neg hcount]
        simp only [Option.some_bind, Option.some.injEq, Prod.mk.injEq,
          List.length_append]
        exact ⟨trivial, by omega⟩
      · rw [if_neg hpos]
        have hval : val = [] := by
          cases val with
          | nil => rfl
          | cons a as => simp at hpos
        subst hval
        have hw00 : w0 = [] := by
          rcases hw0 with rfl | rfl <;> rfl
        subst hw00
        simp only [Option.some.injEq, Prod.mk.injEq, List.length_append,
          List.length_nil, List.append_nil]
        exact ⟨trivial, by omega⟩
  | .vboolean c val =>
      simp only [Valid] at hv
      obtain ⟨hlen, hcount⟩ := hv
      simp only [encodeVar, Option.bind_eq_bind, Option.bind_eq_some,
        Option.some.injEq] at henc
      obtain ⟨hdr, hhdr, hbs⟩ := henc
      subst hbs
      obtain ⟨w0, rfl⟩ : ∃ w0, w = .vboolean c w0 := by
        rcases hw with rfl | hd
        · exact ⟨val, rfl⟩
        · rw [defaultOf] at hd
          exact ⟨[], hd⟩
      simp only [decodeVar, List.append_assoc]
      rw [decode_encode_item_header_fc 9 9 (by norm_num) val.length hlen hdr hhdr
        pre]
      simp only [Option.bind_eq_bind, Option.some_bind]
      have hrb := readBooleans_spec val (pre ++ hdr) suf
      simp only [List.append_assoc, List.length_append] at hrb
      rw [hrb]
      simp only [Option.some_bind]
      rw [booleanSetList, if_neg hcount]
      simp only [Option.some_bind, Option.some.injEq, Prod.mk.injEq,
        List.length_append, List.length_map]
      exact ⟨trivial, by omega⟩
  | .vstring c val =>
      simp only [Valid] at hv
      obtain ⟨hlen, hcount, hbytes⟩ := hv
      simp only [encodeVar, Option.bind_eq_bind, Option.bind_eq_some,
        Option.some.injEq] at henc
      obtain ⟨hdr, hhdr, hbs⟩ := henc
      subst hbs
      obtain ⟨w0, rfl⟩ : ∃ w0, w = .vstring c w0 := by
        rcases hw with rfl | hd
        · exact ⟨val, rfl⟩
        · rw [defaultOf] at hd
          exact ⟨[], hd⟩
      simp only [decodeVar, List.append_assoc]
      rw [decode_encode_item_header_fc 16 16 (by norm_num) val.length hlen hdr hhdr
        pre (val ++ suf)]
      simp only [Option.bind_eq_bind, Option.some_bind]
      have hslice : ((pre ++ (hdr ++ (val ++ suf))).drop (pre.length + hdr.length)).take
          val.length = val := by
        have hs := slice_at (pre ++ hdr) val suf
        simp only [List.append_assoc, List.length_append] at hs
        exact hs
      rw [hslice]
      rw [stringSet, if_neg hcount]
      simp only [Option.some_bind, Option.some.injEq, Prod.mk.injEq,
        List.length_append]
      exact ⟨trivial, by omega⟩
  | .vnumber ty c val =>
      simp only [Valid] at hv
      obtain ⟨hlen, hcount, hrange⟩ := hv
      simp only [encodeVar, Option.bind_eq_bind, Option.bind_eq_some,
        Option.some.injEq] at henc
      obtain ⟨hdr, hhdr, body, hbody, hbs⟩ := henc
      subst hbs
      obtain ⟨w0, rfl⟩ : ∃ w0, w = .vnumber ty c w0 := by
        rcases hw with rfl | hd
        · exact ⟨val, rfl⟩
        · rw [defaultOf] at hd
          exact ⟨[], hd⟩
      simp only [decodeVar, List.append_assoc]
      rw [decode_encode_item_header_fc (ty.formatCode : Int) ty.formatCode rfl
        (val.length * ty.bytes) hlen hdr hhdr pre (body ++ suf)]
      simp only [Option.bind_eq_bind, Option.some_bind]
      have hbpos : 0 < ty.bytes := by cases ty <;> simp [NumTy.bytes]
      rw [Nat.mul_div_cancel _ hbpos]
      obtain ⟨hread, hblen⟩ := readNumbers_packAll ty val body hbody (pre ++ hdr) suf
      simp only [List.append_assoc, List.length_append] at hread
      rw [hread]
      simp only [Option.some_bind]
      have hset : numberSetList ty c val = some val := by
        rw [numberSetList, if_neg hcount, if_neg]
        intro hcontra
        rw [List.any_eq_true] at hcontra
        obtain ⟨x, hx, hxc⟩ := hcontra
        have hr := hrange x hx
        simp only [Bool.or_eq_true, decide_eq_true_eq] at hxc
        omega
      rw [hset]
      simp only [Option.some_bind, Option.some.injEq, Prod.mk.injEq,
        List.length_append]
      exact ⟨trivial, by omega⟩
termination_by (sizeOf v, 0)

/-- Round-trip of the child loop of a named list: decoding the encoded
children into any compatible child list yields the encoded children back,
consuming exactly the encoded bytes. -/
theorem decodeFields_encodeFields (vfs wfs : List (String × SecsVar))
    (hv : ValidFields vfs) (hc : FieldsCompat wfs vfs) (bs : List Nat)
    (henc : encodeFields vfs = some bs) (pre suf : List Nat) :
    decodeFields wfs vfs.length (pre ++ (bs ++ suf)) pre.length =
      some (vfs, pre.length + bs.length) := by
  match vfs, wfs with
  | [], [] =>
      rw [encodeFields] at henc
      have hbs : bs = [] := (Option.some.inj henc).symm
      subst hbs
      rw [List.length_nil, decodeFields]
      simp
  | [], (nmw, wf) :: wrest => exact False.elim hc
  | (nmv, f) :: vrest, [] => exact False.elim hc
  | (nmv, f) :: vrest, (nmw, wf) :: wrest =>
      rw [FieldsCompat] at hc
      obtain ⟨hnm, hwf, hcrest⟩ := hc
      subst hnm
      rw [ValidFields] at hv
      obtain ⟨hvf, hvrest⟩ := hv
      rw [encodeFields] at henc
      simp only [Option.bind_eq_bind, Option.bind_eq_some, Option.some.injEq] at henc
      obtain ⟨b, hb, brest, hbrest, hbs⟩ := henc
      subst hbs
      rw [List.length_cons, decodeFields]
      have hhead := decodeVar_encodeVar f wf hvf hwf b hb pre (brest ++ suf)
      simp only [List.append_assoc] at hhead ⊢
      rw [hhead]
      simp only [Option.bind_eq_bind, Option.some_bind]
      have htail := decodeFields_encodeFields vrest wrest hvrest hcrest brest hbrest
        (pre ++ b) suf
      simp only [List.append_assoc, List.length_append] at htail
      rw [htail]
      simp only [Option.some_bind, Option.some.injEq, Prod.mk.injEq,
        List.length_append]
      exact ⟨trivial, by omega⟩
termination_by (sizeOf vfs, 1)

/-- Round-trip of the item loop of an array: the encoded items decode back
from the array's descriptor, consuming exactly the encoded bytes. -/
theorem decodeItems_encodeItems (descr : SecsVar) (vdata : List SecsVar)
    (hv : ValidItems descr vdata) (bs : List Nat)
    (henc : encodeItems vdata = some bs) (pre suf : List Nat) :
    decodeItems descr vdata.length (pre ++ (bs ++ suf)) pre.length =
      some (vdata, pre.length + bs.length) := by
  match vdata with
  | [] =>
      rw [encodeItems] at henc
      have hbs : bs = [] := (Option.some.inj henc).symm
      subst hbs
      rw [List.length_nil, decodeItems]
      simp
  | it :: vrest =>
      rw [ValidItems] at hv
      obtain ⟨hit, hdef, hvrest⟩ := hv
      rw [encodeItems] at henc
      simp only [Option.bind_eq_bind, Option.bind_eq_some, Option.some.injEq] at henc
      obtain ⟨b, hb, brest, hbrest, hbs⟩ := henc
      subst hbs
      rw [List.length_cons, decodeItems]
      have hhead := decodeVar_encodeVar it descr hit (Or.inr hdef.symm) b hb pre
        (brest ++ suf)
      simp only [List.append_assoc] at hhead ⊢
      rw [hhead]
      simp only [Option.bind_eq_bind, Option.some_bind]
      have htail := decodeItems_encodeItems descr vrest hvrest brest hbrest
        (pre ++ b) suf
      simp only [List.append_assoc, List.length_append] at htail
      rw [htail]
      simp only [Option.some_bind, Option.some.injEq, Prod.mk.injEq,
        List.length_append]
      exact ⟨trivial, by omega⟩
termination_by (sizeOf vdata, 1)

end

theorem encode_item_header_total (fc l : Nat) (hl : l ≤ 0xFFFFFF) :
    ∃ hb, encode_item_header fc (l : Int) = some hb := by
  rw [encode_item_header, if_neg (by omega), if_neg (by omega)]
  by_cases h3 : (l : Int).toNat > 0xFFFF
  · rw [if_pos h3]; exact ⟨_, rfl⟩
  · rw [if_neg h3]
    by_cases h2 : (l : Int).toNat > 0xFF
    · rw [if_pos h2]; exact ⟨_, rfl⟩
    · rw [if_neg h2]; exact ⟨_, rfl⟩

theorem packAll_total (ty : NumTy) (xs : List Int)
    (h : ∀ x ∈ xs, ty.minValue ≤ x ∧ x ≤ ty.maxValue) :
    ∃ bs, packAll ty xs = some bs := by
  induction xs with
  | nil => exact ⟨[], rfl⟩
  | cons x rest ih =>
      obtain ⟨hx1, hx2⟩ := h x (List.mem_cons_self x rest)
      obtain ⟨brest, hbrest⟩ := ih (fun y hy => h y (List.mem_cons_of_mem x hy))
      refine ⟨natToBytesBE ty.bytes (x.emod (2 ^ (8 * ty.bytes))).toNat ++ brest, ?_⟩
      rw [packAll, packNumber, if_neg (by omega), hbrest]
      rfl

mutual

/-- Encoding totality: a valid variable always encodes. -/
theorem encodeVar_total (v : SecsVar) (hv : Valid v) :
    ∃ bs, encodeVar v = some bs := by
  match v with
  | .vlist fields =>
      simp only [Valid] at hv
      obtain ⟨hflen, hvf⟩ := hv
      obtain ⟨hdr, hhdr⟩ := encode_item_header_total 0 fields.length hflen
      obtain ⟨body, hbody⟩ := encodeFields_total fields hvf
      exact ⟨hdr ++ body, by
        simp only [encodeVar, hhdr, hbody, Option.bind_eq_bind, Option.some_bind]⟩
  | .varray c descr vdata =>
      simp only [Valid] at hv
      obtain ⟨hdlen, hddef, hvi⟩ := hv
      obtain ⟨hdr, hhdr⟩ := encode_item_header_total 0 vdata.length hdlen
      obtain ⟨body, hbody⟩ := encodeItems_total descr vdata hvi
      exact ⟨hdr ++ body, by
        simp only [encodeVar, hhdr, hbody, Option.bind_eq_bind, Option.some_bind]⟩
  | .vbinary c val =>
      simp only [Valid] at hv
      obtain ⟨hlen, -, -⟩ := hv
      obtain ⟨hdr, hhdr⟩ := encode_item_header_total 8 val.length hlen
      exact ⟨hdr ++ val, by
        simp only [encodeVar, hhdr, Option.bind_eq_bind, Option.some_bind]⟩
  | .vboolean c val =>
      simp only [Valid] at hv
      obtain ⟨hlen, -⟩ := hv
      obtain ⟨hdr, hhdr⟩ := encode_item_header_total 9 val.length hlen
      exact ⟨hdr ++ val.map (fun b => if b then 1 else 0), by
        simp only [encodeVar, hhdr, Option.bind_eq_bind, Option.some_bind]⟩
  | .vstring c val =>
      simp only [Valid] at hv
      obtain ⟨hlen, -, -⟩ := hv
      obtain ⟨hdr, hhdr⟩ := encode_item_header_total 16 val.length hlen
      exact ⟨hdr ++ val, by
        simp only [encodeVar, hhdr, Option.bind_eq_bind, Option.some_bind]⟩
  | .vnumber ty c val =>
      simp only [Valid] at hv
      obtain ⟨hlen, -, hrange⟩ := hv
      obtain ⟨hdr, hhdr⟩ := encode_item_header_total ty.formatCode
        (val.length * ty.bytes) hlen
      obtain ⟨body, hbody⟩ := packAll_total ty val hrange
      exact ⟨hdr ++ body, by
        simp only [encodeVar, hhdr, hbody, Option.bind_eq_bind, Option.some_bind]⟩
termination_by (sizeOf v, 0)

theorem encodeFields_total (fs : List (String × SecsVar)) (hv : ValidFields fs) :
    ∃ bs, encodeFields fs = some bs := by
  match fs with
  | [] => exact ⟨[], by rw [encodeFields]⟩
  | (nm, f) :: rest =>
      rw [ValidFields] at hv
      obtain ⟨hvf, hvrest⟩ := hv
      obtain ⟨b, hb⟩ := encodeVar_total f hvf
      obtain ⟨brest, hbrest⟩ := encodeFields_total rest hvrest
      exact ⟨b ++ brest, by
        simp only [encodeFields, hb, hbrest, Option.bind_eq_bind, Option.some_bind]⟩
termination_by (sizeOf fs, 1)

theorem encodeItems_total (descr : SecsVar) (ds : List SecsVar)
    (hv : ValidItems descr ds) : ∃ bs, encodeItems ds = some bs := by
  match ds with
  | [] => exact ⟨[], by rw [encodeItems]⟩
  | it :: rest =>
      rw [ValidItems] at hv
      obtain ⟨hit, -, hvrest⟩ := hv
      obtain ⟨b, hb⟩ := encodeVar_total it hit
      obtain ⟨brest, hbrest⟩ := encodeItems_total descr rest hvrest
      exact ⟨b ++ brest, by
        simp only [encodeItems, hb, hbrest, Option.bind_eq_bind, Option.some_bind]⟩
termination_by (sizeOf ds, 1)

end

/-! ## The F4 float variant

Source: `SecsVarF4` (lines 2245-2262), `_bytes = 4`, struct code `f`,
range `±3.40282e+38`.  `SecsVarNumber.encode` packs each element with
`struct.pack(">f", x)`, which rounds the Python double `x` to the nearest
IEEE-754 binary32 value (ties to even); `SecsVarNumber.decode` unpacks that
binary32 value exactly (as a double) and `set` stores it.  Python doubles
are modelled as rationals; the model below covers binary32's normal range,
which is where the counterexample input lies. -/

/-- Round to the nearest integer, ties to even (IEEE-754 default rounding,
used by `struct.pack`). -/
def rne (y : ℚ) : ℤ :=
  if Int.fract y < 1 / 2 then ⌊y⌋
  else if Int.fract y > 1 / 2 then ⌊y⌋ + 1
  else if ⌊y⌋ % 2 = 0 then ⌊y⌋ else ⌊y⌋ + 1

/-- Floor logarithm base 2 over binary32's exponent range, by bounded
search: the `e ∈ [-127, 128]` with `2^e ≤ x < 2^(e+1)`. -/
def floorLog2 (x : ℚ) : Int :=
  go 255 (-127)
where
  go : Nat → Int → Int
    | 0, e => e
    | n + 1, e => if x < 2 ^ (e + 1) then e else go n (e + 1)

/-- Value held by a `SecsVarF4` after encoding the double `x` with
`struct.pack(">f", x)` and decoding it back: the nearest binary32 value
(24-bit significand at the input's binary exponent). -/
def f4EncodeDecodeValue (x : ℚ) : ℚ :=
  if x = 0 then 0
  else if x > 0 then
    (rne (x / 2 ^ (floorLog2 x - 23)) : ℚ) * 2 ^ (floorLog2 x - 23)
  else
    -((rne (-x / 2 ^ (floorLog2 (-x) - 23)) : ℚ) * 2 ^ (floorLog2 (-x) - 23))

/-! ## The F8 float variant

Source: `SecsVarF8` (lines 2225-2242), `_bytes = 8`, struct code `d`,
range `±1.79769e+308`, with `encode`/`decode` inherited from
`SecsVarNumber` (lines 2096-2142).  A Python float is exactly an IEEE-754
binary64 value, and `struct.pack(">d", x)` emits the 8 bytes of `x`'s bit
pattern, big-endian — unlike `">f"` there is no rounding, and
`struct.unpack(">d")` inverts it exactly.  A held double is therefore
modelled by its 64-bit pattern (a `Nat` below `2^64`, carried as `Int`);
emitting a pattern big-endian coincides with the unsigned 8-byte packer
`packNumber .u8`.  `val64` gives a finite pattern's rational value, used
by the `set` range check; patterns with exponent field 2047 (infinities,
whose comparison against the bound succeeds as the formula value exceeds
every finite bound, and NaNs, which have no rational value and are outside
this model) are excluded from `ValidF8`. -/

/-- Rational value of a binary64 bit pattern (sign, 11-bit exponent field,
52-bit fraction; exponent field 0 is the subnormal range). -/
def val64 (p : Nat) : ℚ :=
  (if p / 2 ^ 63 % 2 = 1 then (-1 : ℚ) else 1) *
    (if p / 2 ^ 52 % 2 ^ 11 = 0
      then ((p % 2 ^ 52 : ℕ) : ℚ) * (2 : ℚ) ^ (-(1074 : ℤ))
      else ((2 ^ 52 + p % 2 ^ 52 : ℕ) : ℚ) *
        (2 : ℚ) ^ (((p / 2 ^ 52 % 2 ^ 11 : ℕ) : ℤ) - 1075))

/-- Exact value of the Python double literal `1.79769e+308` (the `_max`
class constant of `SecsVarF8`): the nearest binary64 to 1.79769·10^308. -/
def f8Max : ℚ := 9007183547761326 * 2 ^ 971

/-- List branch of `SecsVarNumber.set` for `SecsVarF8`: the `count` bound
check, then per item the range check `value < _min or value > _max` on the
held double's value. -/
def f8SetList (count : Int) (xs : List Int) : Option (List Int) :=
  if 0 ≤ count ∧ count < (xs.length : Int) then none
  else if xs.any (fun p =>
      decide (val64 p.toNat < -f8Max) || decide (val64 p.toNat > f8Max)) then none
  else some xs

/-- Method `encode` of `SecsVarF8`: the item header for format code `0o40`
and byte length `8 * len(value)`, then each element's 8 pattern bytes
big-endian (`struct.pack(">d", value)`). -/
def encodeF8 (count : Int) (v : List Int) : Option (List Nat) := do
  let hdr ← encode_item_header 32 ((v.length * 8 : Nat) : Int)
  let body ← packAll .u8 v
  some (hdr ++ body)

/-- Method `decode` of `SecsVarF8`: read the item header (checking format
code `0o40`), read `length // 8` patterns, and `set` the result list. -/
def decodeF8 (count : Int) (data : List Nat) (pos : Nat) :
    Option ((Int × List Int) × Nat) := do
  let (p, _, length) ← decode_item_header 32 data pos
  let (vals, p2) ← readNumbers .u8 data p (length / 8)
  let v2 ← f8SetList count vals
  some ((count, v2), p2)

/-- Validity of an F8 variable's held value: payload length within the
3-byte header ceiling, `count` bound respected, every pattern a 64-bit
pattern of a finite double within the `set` range `±1.79769e+308`. -/
def ValidF8 (count : Int) (v : List Int) : Prop :=
  v.length * 8 ≤ 0xFFFFFF ∧ ¬(0 ≤ count ∧ count < (v.length : Int)) ∧
    ∀ p ∈ v, 0 ≤ p ∧ p ≤ 18446744073709551615 ∧
      -f8Max ≤ val64 p.toNat ∧ val64 p.toNat ≤ f8Max

theorem encodeF8_total (c : Int) (val : List Int) (hv : ValidF8 c val) :
    ∃ bs, encodeF8 c val = some bs := by
  obtain ⟨hlen, -, hrange⟩ := hv
  obtain ⟨hdr, hhdr⟩ := encode_item_header_total 32 (val.length * 8) hlen
  obtain ⟨body, hbody⟩ := packAll_total .u8 val (fun x hx => by
    obtain ⟨h1, h2, -⟩ := hrange x hx
    simp only [NumTy.minValue, NumTy.maxValue]
    omega)
  exact ⟨hdr ++ body, by
    simp only [encodeF8, hhdr, hbody, Option.bind_eq_bind, Option.some_bind]⟩

theorem decodeF8_encodeF8 (c : Int) (val : List Int) (hv : ValidF8 c val)
    (bs : List Nat) (henc : encodeF8 c val = some bs) (pre suf : List Nat) :
    decodeF8 c (pre ++ (bs ++ suf)) pre.length =
      some ((c, val), pre.length + bs.length) := by
  obtain ⟨hlen, hcount, hrange⟩ := hv
  simp only [encodeF8, Option.bind_eq_bind, Option.bind_eq_some,
    Option.some.injEq] at henc
  obtain ⟨hdr, hhdr, body, hbody, hbs⟩ := henc
  subst hbs
  simp only [decodeF8, List.append_assoc]
  rw [decode_encode_item_header_fc 32 32 (by norm_num) (val.length * 8) hlen hdr
    hhdr pre (body ++ suf)]
  simp only [Option.bind_eq_bind, Option.some_bind]
  rw [Nat.mul_div_cancel _ (by norm_num : 0 < 8)]
  obtain ⟨hread, hblen⟩ := readNumbers_packAll .u8 val body hbody (pre ++ hdr) suf
  simp only [List.append_assoc, List.length_append] at hread
  rw [hread]
  simp only [Option.some_bind]
  have hset : f8SetList c val = some val := by
    rw [f8SetList, if_neg hcount, if_neg]
    intro hcontra
    rw [List.any_eq_true] at hcontra
    obtain ⟨x, hx, hxc⟩ := hcontra
    obtain ⟨-, -, h3, h4⟩ := hrange x hx
    simp only [Bool.or_eq_true, decide_eq_true_eq] at hxc
    rcases hxc with h | h
    · exact absurd h (not_lt.mpr h3)
    · exact absurd h (not_lt.mpr h4)
  rw [hset]
  simp only [Option.some_bind, Option.some.injEq, Prod.mk.injEq,
    List.length_append]
  exact ⟨trivial, by omega⟩

/-- Sample variable covering every non-float variant, used to witness the
round-trip theorem. -/
def sampleVar : SecsVar :=
  .vlist [("A", .vnumber .u2 (-1) [258, 5]),
    ("B", .vstring 10 [72, 105]),
    ("C", .varray (-1) (.vnumber .i1 (-1) [])
      [.vnumber .i1 (-1) [-5], .vnumber .i1 (-1) [7]]),
    ("D", .vboolean (-1) [true, false]),
    ("E", .vbinary (-1) [0, 255])]

/-- C1 (amended to every variant except F4, which is refuted by
`secsVarF4_roundtrip_counterexample`): for every SECS variable of a
List, Array, Binary, Boolean, ASCII-String or fixed-width-integer variant
holding a valid value, encoding succeeds and decoding the encoded byte
string back into the variable yields the variable unchanged, with the
decoder consuming exactly the encoded bytes; and likewise for every F8
variable holding valid (finite, in-range) doubles — `struct.pack(">d")`
stores each held double bit-exactly, so the F8 variant round-trips. -/
theorem secsVar_decode_encode_roundtrip (v : SecsVar) (hv : Valid v)
    (c : Int) (fv : List Int) (hf : ValidF8 c fv) :
    (∃ bs, encodeVar v = some bs ∧ decodeVar v bs 0 = some (v, bs.length)) ∧
    (∃ bs, encodeF8 c fv = some bs ∧
      decodeF8 c bs 0 = some ((c, fv), bs.length)) := by
  constructor
  · obtain ⟨bs, hbs⟩ := encodeVar_total v hv
    refine ⟨bs, hbs, ?_⟩
    have h := decodeVar_encodeVar v v hv (Or.inl rfl) bs hbs [] []
    simpa using h
  · obtain ⟨bs, hbs⟩ := encodeF8_total c fv hf
    refine ⟨bs, hbs, ?_⟩
    have h := decodeF8_encodeF8 c fv hf bs hbs [] []
    simpa using h

/-- Witness for `secsVar_decode_encode_roundtrip` at a concrete variable
containing a U2 array, a bounded string, an I1 homogeneous array, booleans
and binary bytes, together with an F8 variable holding the double 1.0
(pattern 0x3FF0000000000000 = 4607182418800017408). -/
theorem secsVar_decode_encode_roundtrip_witness :
    (Valid sampleVar ∧ ValidF8 (-1) [4607182418800017408]) ∧
    (∃ bs, encodeVar sampleVar = some bs ∧
      decodeVar sampleVar bs 0 = some (sampleVar, bs.length)) ∧
    (∃ bs, encodeF8 (-1) [4607182418800017408] = some bs ∧
      decodeF8 (-1) bs 0 =
        some (((-1 : Int), [(4607182418800017408 : Int)]), bs.length)) := by
  have hf8 : ValidF8 (-1) [4607182418800017408] := by
    refine ⟨by norm_num, by norm_num, ?_⟩
    intro p hp
    simp only [List.mem_singleton] at hp
    subst hp
    have hval : val64 ((4607182418800017408 : Int)).toNat = 1 := by
      have ht : ((4607182418800017408 : Int)).toNat = 4607182418800017408 := rfl
      rw [ht, val64]
      norm_num
    refine ⟨by norm_num, by norm_num, ?_, ?_⟩
    · rw [hval, f8Max]
      norm_num
    · rw [hval, f8Max]
      norm_num
  have hvalid : Valid sampleVar := by
    rw [sampleVar]
    rw [Valid]
    refine ⟨by norm_num, ?_⟩
    rw [ValidFields]
    refine ⟨by rw [Valid]; norm_num [NumTy.minValue, NumTy.maxValue, NumTy.bytes], ?_⟩
    rw [ValidFields]
    refine ⟨by rw [Valid]; norm_num, ?_⟩
    rw [ValidFields]
    refine ⟨?_, ?_⟩
    · rw [Valid]
      refine ⟨by norm_num, by rw [defaultOf], ?_⟩
      rw [ValidItems]
      refine ⟨by rw [Valid]; norm_num [NumTy.minValue, NumTy.maxValue, NumTy.bytes],
        by rw [defaultOf], ?_⟩
      rw [ValidItems]
      refine ⟨by rw [Valid]; norm_num [NumTy.minValue, NumTy.maxValue, NumTy.bytes],
        by rw [defaultOf], ?_⟩
      rw [ValidItems]
      trivial
    · rw [ValidFields]
      refine ⟨by rw [Valid]; norm_num, ?_⟩
      rw [ValidFields]
      refine ⟨by rw [Valid]; norm_num, ?_⟩
      rw [ValidFields]
      trivial
  exact ⟨⟨hvalid, hf8⟩,
    secsVar_decode_encode_roundtrip sampleVar hvalid (-1) _ hf8⟩

set_option maxRecDepth 4000 in
/-- C1 counterexample (the claim as stated, over every variant): the F4
variant does not round-trip.  The value 0.1 — the Python double
3602879701896397/2^55 — is accepted by `SecsVarF4.set` (it is far inside
±3.40282e+38), but `struct.pack(">f", ...)` stores the nearest binary32
value 13421773/2^27, so the decoded variable differs from the original. -/
theorem secsVarF4_roundtrip_counterexample :
    f4EncodeDecodeValue (3602879701896397 / 36028797018963968 : ℚ) =
      13421773 / 134217728 ∧
    f4EncodeDecodeValue (3602879701896397 / 36028797018963968 : ℚ) ≠
      3602879701896397 / 36028797018963968 := by
  have hfl : floorLog2 (3602879701896397 / 36028797018963968 : ℚ) = -4 := by
    norm_num [floorLog2, floorLog2.go]
  have harg : (3602879701896397 / 36028797018963968 : ℚ) / 2 ^ ((-4 : Int) - 23) =
      3602879701896397 / 268435456 := by norm_num
  have hrne : rne ((3602879701896397 : ℚ) / 268435456) = 13421773 := by
    rw [rne, Int.fract]
    norm_num
  have hmain : f4EncodeDecodeValue (3602879701896397 / 36028797018963968 : ℚ) =
      13421773 / 134217728 := by
    rw [f4EncodeDecodeValue, if_neg (by norm_num), if_pos (by norm_num), hfl, harg,
      hrne]
    norm_num
  exact ⟨hmain, by rw [hmain]; norm_num⟩

/-! ## Partial-element decoding (C9) -/

theorem bytesToNatBE_lt_of_bytes (bs : List Nat) (acc : Nat)
    (hb : ∀ b ∈ bs, b < 256) :
    bytesToNatBE acc bs < (acc + 1) * 256 ^ bs.length := by
  induction bs generalizing acc with
  | nil => simp [bytesToNatBE]
  | cons b rest ih =>
      have hbb : b < 256 := hb b (List.mem_cons_self b rest)
      have hrest := ih (acc * 256 + b) (fun y hy => hb y (List.mem_cons_of_mem b hy))
      have hstep : bytesToNatBE acc (b :: rest) = bytesToNatBE (acc * 256 + b) rest := by
        simp [bytesToNatBE]
      rw [hstep, List.length_cons]
      have hpow : (acc + 1) * 256 ^ (rest.length + 1) =
          ((acc * 256 + 256) * 256 ^ rest.length) := by ring
      rw [hpow]
      have hmono : (acc * 256 + b + 1) * 256 ^ rest.length ≤
          (acc * 256 + 256) * 256 ^ rest.length := by
        apply Nat.mul_le_mul_right
        omega
      omega

theorem unpackNumber_range (ty : NumTy) (bs : List Nat)
    (hlen : bs.length = ty.bytes) (hb : ∀ b ∈ bs, b < 256) :
    ty.minValue ≤ unpackNumber ty bs ∧ unpackNumber ty bs ≤ ty.maxValue := by
  have hn : bytesToNatBE 0 bs < 256 ^ ty.bytes := by
    have := bytesToNatBE_lt_of_bytes bs 0 hb
    rw [hlen] at this
    omega
  rw [unpackNumber]
  cases ty
  all_goals simp only [NumTy.signed, NumTy.bytes, NumTy.minValue, NumTy.maxValue,
    eq_self_iff_true, true_and, Bool.false_eq_true, false_and, if_false] at hn ⊢
  all_goals first
  | (split_ifs <;> constructor <;> omega)
  | (constructor <;> omega)

theorem readNumbers_total (ty : NumTy) (data : List Nat) (k : Nat) : ∀ (pos : Nat),
    (∀ b ∈ data.drop pos, b < 256) → pos + k * ty.bytes ≤ data.length →
    ∃ vals, readNumbers ty data pos k = some (vals, pos + k * ty.bytes) ∧
      vals.length = k ∧ ∀ x ∈ vals, ty.minValue ≤ x ∧ x ≤ ty.maxValue := by
  induction k with
  | zero =>
      intro pos _ _
      refine ⟨[], ?_, ?_, ?_⟩
      · rw [readNumbers]
        simp
      · rfl
      · simp
  | succ k ih =>
      intro pos hbytes hdata
      have hw : 0 < ty.bytes := by cases ty <;> simp [NumTy.bytes]
      have hslicelen : ((data.drop pos).take ty.bytes).length = ty.bytes := by
        rw [List.length_take, List.length_drop]
        have : (k + 1) * ty.bytes = k * ty.bytes + ty.bytes := by ring
        omega
      have hslicemem : ∀ b ∈ (data.drop pos).take ty.bytes, b < 256 := fun b hb =>
        hbytes b (List.take_subset _ _ hb)
      obtain ⟨hlo, hhi⟩ := unpackNumber_range ty _ hslicelen hslicemem
      have hsub : ∀ b ∈ data.drop (pos + ty.bytes), b ∈ data.drop pos := by
        intro b hb
        have hdd : data.drop (pos + ty.bytes) = (data.drop pos).drop ty.bytes := by
          rw [List.drop_drop, Nat.add_comm]
        rw [hdd] at hb
        exact List.drop_subset _ _ hb
      obtain ⟨vals, hread, hvlen, hvrange⟩ := ih (pos + ty.bytes)
        (fun b hb => hbytes b (hsub b hb))
        (by
          have : (k + 1) * ty.bytes = k * ty.bytes + ty.bytes := by ring
          omega)
      refine ⟨unpackNumber ty ((data.drop pos).take ty.bytes) :: vals, ?_, by simp [hvlen], ?_⟩
      · rw [readNumbers, if_neg (by omega), hread]
        simp only [Option.bind_eq_bind, Option.some_bind, Option.some.injEq,
          Prod.mk.injEq, List.cons.injEq]
        have : (k + 1) * ty.bytes = k * ty.bytes + ty.bytes := by ring
        refine ⟨?_, by omega⟩
        simp
      · intro x hx
        rcases List.mem_cons.1 hx with rfl | hx2
        · exact ⟨hlo, hhi⟩
        · exact hvrange x hx2

/-- C9: decoding a numeric body whose wire length field `L` is not a
multiple of the element width does not fail: exactly `L / _bytes` elements
are decoded, the returned position advances past only those elements, and
the leftover `L % _bytes` bytes are neither consumed nor reported as an
error. -/
theorem secsVarNumber_decode_nonmultiple (ty : NumTy) (c : Int) (v0 : List Int)
    (L : Nat) (hdr body : List Nat)
    (hhdr : encode_item_header ty.formatCode (L : Int) = some hdr)
    (hmod : L % ty.bytes ≠ 0)
    (hblen : L / ty.bytes * ty.bytes ≤ body.length)
    (hbytes : ∀ b ∈ body, b < 256)
    (hcount : ¬(0 ≤ c ∧ c < ((L / ty.bytes : Nat) : Int))) :
    ∃ vals, vals.length = L / ty.bytes ∧
      decodeVar (.vnumber ty c v0) (hdr ++ body) 0 =
        some (.vnumber ty c vals, hdr.length + L / ty.bytes * ty.bytes) ∧
      hdr.length + L / ty.bytes * ty.bytes + L % ty.bytes = hdr.length + L := by
  have hL : L ≤ 0xFFFFFF := encode_item_header_le ty.formatCode L hdr hhdr
  have hhdec := decode_encode_item_header_fc (ty.formatCode : Int) ty.formatCode rfl
    L hL hdr hhdr [] body
  simp only [List.nil_append, List.length_nil, Nat.zero_add] at hhdec
  obtain ⟨vals, hread, hvlen, hvrange⟩ := readNumbers_total ty (hdr ++ body)
    (L / ty.bytes) hdr.length
    (by rw [List.drop_left]; exact hbytes)
    (by rw [List.length_append]; omega)
  refine ⟨vals, hvlen, ?_, by
    have h1 := Nat.div_add_mod L ty.bytes
    have h2 : L / ty.bytes * ty.bytes = ty.bytes * (L / ty.bytes) := Nat.mul_comm _ _
    omega⟩
  simp only [decodeVar]
  rw [hhdec]
  simp only [Option.bind_eq_bind, Option.some_bind]
  rw [hread]
  simp only [Option.some_bind]
  have hset : numberSetList ty c vals = some vals := by
    rw [numberSetList, if_neg (by rw [hvlen]; exact hcount), if_neg]
    intro hcontra
    rw [List.any_eq_true] at hcontra
    obtain ⟨x, hx, hxc⟩ := hcontra
    have hr := hvrange x hx
    simp only [Bool.or_eq_true, decide_eq_true_eq] at hxc
    omega
  rw [hset]
  rfl

/-- Witness for `secsVarNumber_decode_nonmultiple`: a U2 body with wire
length 5 decodes two elements, leaving one byte unconsumed. -/
theorem secsVarNumber_decode_nonmultiple_witness :
    encode_item_header NumTy.u2.formatCode (5 : Int) = some [169, 5] ∧
    5 % NumTy.u2.bytes ≠ 0 ∧
    (∃ vals, vals.length = 5 / NumTy.u2.bytes ∧
      decodeVar (.vnumber .u2 (-1) []) ([169, 5] ++ [1, 2, 3, 4, 9]) 0 =
        some (.vnumber .u2 (-1) vals,
          ([169, 5] : List Nat).length + 5 / NumTy.u2.bytes * NumTy.u2.bytes) ∧
      ([169, 5] : List Nat).length + 5 / NumTy.u2.bytes * NumTy.u2.bytes +
        5 % NumTy.u2.bytes = ([169, 5] : List Nat).length + 5) := by
  refine ⟨by decide, by decide, ?_⟩
  exact secsVarNumber_decode_nonmultiple .u2 (-1) [] 5 [169, 5] [1, 2, 3, 4, 9]
    (by decide) (by decide) (by decide) (by decide) (by decide)

/-! ## Named-list positional set (C8)

Source: `SecsVarList.set` (lines 1012-1032), list branch: the field-count
check `len(value) > len(self.data)` raises `ValueError`, then
`self.data[list(self.data.keys())[counter]].set(itemvalue)` assigns
positionally; trailing children are not touched.  The child `set` invoked
by the loop is the child variant's own; it is modelled here for integer
item values. -/

/-- Scalar-integer `set` of each variant, as dispatched on a child by the
list's positional loop: numbers check their range (`SecsVarNumber.set`),
booleans accept 0/1 (`SecsVarBoolean.set`), binary accepts a byte
(`SecsVarBinary.set`), text converts to the decimal string
(`SecsVarText.set`); a list or array rejects a non-list value
(`ValueError`). -/
def setVarInt : SecsVar → Int → Option SecsVar
  | .vlist _, _ => none
  | .varray _ _ _, _ => none
  | .vbinary c _, x =>
      if x < 0 ∨ x > 255 then none
      else if 0 < c ∧ c < 1 then none
      else some (.vbinary c [x.toNat])
  | .vboolean c _, x =>
      if x < 0 ∨ x > 1 then none
      else some (.vboolean c [decide (x = 1)])
  | .vstring c _, x =>
      if 0 < c ∧ c < (((toString x).data.map Char.toNat).length : Int) then none
      else some (.vstring c ((toString x).data.map Char.toNat))
  | .vnumber ty c _, x => (numberSetScalar ty x).map (fun v => .vnumber ty c v)

/-- Positional assignment loop of `SecsVarList.set`: set the first `k`
children from the `k` values in order, keep the rest. -/
def listAssign : List (String × SecsVar) → List Int → Option (List (String × SecsVar))
  | fs, [] => some fs
  | [], _ :: _ => none
  | (nm, f) :: rest, x :: xs => do
      let f2 ← setVarInt f x
      let rest2 ← listAssign rest xs
      some ((nm, f2) :: rest2)

/-- List branch of `SecsVarList.set` for a sequence of integer values:
field-count check, then positional assignment. -/
def listSetList (fields : List (String × SecsVar)) (values : List Int) :
    Option (List (String × SecsVar)) :=
  if values.length > fields.length then none
  else listAssign fields values

/-- C8 counterexample: the claim's "succeeds if and only if k ≤ n" fails:
one value for one declared U1 field (k = 1 ≤ n = 1), but the value 256 is
out of the field's range, so `set` raises `ValueError`. -/
theorem secsVarList_set_counterexample :
    (1 : Nat) ≤ 1 ∧
    listSetList [("X", .vnumber .u1 (-1) [])] [256] = none := by
  constructor
  · decide
  · rfl

/-- C8 (amended): `set` with a value sequence of length `k` on a named
list with `n` declared fields fails with a field-count `ValueError` when
`k > n`; when `k ≤ n` it assigns the first `k` fields positionally (each
through that field's own `set`, whose failure fails the whole call) and
leaves the trailing `n − k` fields untouched — their constructed defaults
when the structure is fresh. -/
theorem secsVarList_set_spec (fields : List (String × SecsVar)) (values : List Int) :
    (values.length > fields.length → listSetList fields values = none)
    ∧ (values.length ≤ fields.length →
        listSetList fields values =
          (listAssign (fields.take values.length) values).map
            (fun fs2 => fs2 ++ fields.drop values.length)) := by
  constructor
  · intro h
    rw [listSetList, if_pos h]
  · intro h
    rw [listSetList, if_neg (by omega)]
    induction values generalizing fields with
    | nil => simp [listAssign]
    | cons x xs ih =>
        match fields with
        | [] => simp at h
        | (nm, f) :: rest =>
            simp only [List.length_cons]
            rw [List.take_succ_cons, List.drop_succ_cons]
            rw [listAssign, listAssign]
            cases hset : setVarInt f x with
            | none => simp
            | some f2 =>
                simp only [Option.bind_eq_bind, Option.some_bind]
                have hrest := ih rest (by simpa using h)
                rw [hrest]
                cases hassign : listAssign (rest.take xs.length) xs with
                | none => simp
                | some r2 => simp

/-- Witness for `secsVarList_set_spec`: two declared fields (U1 and
Boolean), one supplied value: the first field is assigned 7, the second
keeps its default. -/
theorem secsVarList_set_spec_witness :
    (1 : Nat) ≤ 2 ∧
    listSetList [("A", .vnumber .u1 (-1) []), ("B", .vboolean (-1) [])] [7] =
      (listAssign ([("A", SecsVar.vnumber .u1 (-1) []),
          ("B", SecsVar.vboolean (-1) [])].take 1) [7]).map
        (fun fs2 => fs2 ++ [("A", SecsVar.vnumber .u1 (-1) []),
          ("B", SecsVar.vboolean (-1) [])].drop 1) :=
  ⟨by decide,
    (secsVarList_set_spec [("A", .vnumber .u1 (-1) []), ("B", .vboolean (-1) [])]
      [7]).2 (by decide)⟩

/-! ## HSMS packets and packet dispatch (C4)

Source: `HsmsHeader`/`HsmsRejectReqHeader` (secsgem.py lines 12336-12637)
and `HsmsHandler.on_connection_packet_received` (lines 13071-13105). -/

structure HsmsHeader where
  sessionID : Nat
  stream : Nat
  function : Nat
  pType : Nat
  sType : Nat
  system : Nat
  requireResponse : Bool
deriving DecidableEq

/-- Constructor of `HsmsRejectReqHeader` (lines 12606-12637): session
0xFFFF, the rejected SType in `stream`, the reason code in `function`,
pType 0, sType 7. -/
def HsmsRejectReqHeader (system s_type reason : Nat) : HsmsHeader :=
  { sessionID := 0xFFFF, stream := s_type, function := reason, pType := 0,
    sType := 7, system := system, requireResponse := false }

structure HsmsPacket where
  header : HsmsHeader
  data : List Nat := []
deriving DecidableEq

/-- Outcome of `HsmsHandler.on_connection_packet_received` for one packet. -/
inductive HandlerAction where
  /-- `sType > 0`: control message, handed to `__handle_hsms_requests`. -/
  | hsmsRequest
  /-- Data message rejected: the reject packet is sent and the message
  is discarded (the branch returns immediately). -/
  | sendReject (p : HsmsPacket)
  /-- Data message delivered to the response queue registered for its
  `system` (`self._systemQueues[...].put_nowait`). -/
  | deliverToWaiter (system : Nat)
  /-- Data message forwarded to `_on_hsms_packet_received`. -/
  | dispatchToHandler
deriving DecidableEq

/-- `HsmsHandler.on_connection_packet_received` (lines 13071-13105):
dispatch of one inbound packet given the handler's `is_connected` /
`is_selected` flags and the set of registered response-queue system ids.
The reject branch fires only when the handler is marked neither connected
nor selected (`if not self.is_connected and not self.is_selected`, line
13087). -/
def on_connection_packet_received (isConnected isSelected : Bool)
    (queues : List Nat) (packet : HsmsPacket) : HandlerAction :=
  if packet.header.sType > 0 then .hsmsRequest
  else if isConnected = false ∧ isSelected = false then
    .sendReject { header := (HsmsRejectReqHeader packet.header.system
      packet.header.sType 4) }
  else if packet.header.system ∈ queues then .deliverToWaiter packet.header.system
  else .dispatchToHandler

/-- C4: evaluation of the dispatch at the failing input.  A data message
(SType 0) received while the handler is connected but not selected is
dispatched to the normal handler with no Reject sent — the reject branch
requires not-connected and not-selected simultaneously, which never holds
while packets are being received; the reject with the claimed header
fields (sessionID 0xFFFF, stream = rejected SType 0, function = reason 4,
sType 7, same system) is produced only in the unreachable
both-flags-false state. -/
theorem hsms_data_not_selected_divergence :
    on_connection_packet_received true false [] ⟨⟨0, 1, 1, 0, 0, 42, true⟩, []⟩
      = .dispatchToHandler
    ∧ on_connection_packet_received false false [] ⟨⟨0, 1, 1, 0, 0, 42, true⟩, []⟩
      = .sendReject ⟨⟨0xFFFF, 0, 4, 0, 7, 42, false⟩, []⟩ := by
  exact ⟨rfl, rfl⟩

/-! ## GEM communication state machine (C5)

Source: the `Fysom` configuration of `GemHandler.communicationState`
(lines 13823-13854) and `GemHandler._on_hsms_packet_received`
(lines 13898-13924). -/

inductive CommState where
  | DISABLED
  | ENABLED
  | NOT_COMMUNICATING
  | EQUIPMENT_INITIATED_CONNECT
  | WAIT_CRA
  | WAIT_DELAY
  | COMMUNICATING
  | HOST_INITIATED_CONNECT
  | WAIT_CR_FROM_HOST
deriving DecidableEq

inductive GemAction where
  /-- `send_response(self.stream_function(1, 14)(...), packet.header.system)`. -/
  | sendS1F14 (system : Nat) (mdln : List String)
  /-- The packet is handed to `_handle_stream_function` on a worker thread. -/
  | dispatchThread
  /-- Nothing is done with the packet. -/
  | ignore
deriving DecidableEq

/-- `GemHandler._on_hsms_packet_received` (lines 13898-13924) combined
with the `s1f13received` / `s1f14received` transitions of the
communication FSM: in `WAIT_CRA` an S1F13 is answered with S1F14 (MDLN
empty for a host, `[MDLN, SOFTREV]` for equipment) and the state jumps to
`COMMUNICATING`; an S1F14 jumps to `COMMUNICATING`; in `WAIT_DELAY` the
packet is ignored (`pass`); in `COMMUNICATING` it is dispatched to the
stream-function handler; in every other state the method falls through
all branches and does nothing. -/
def gem_on_hsms_packet_received (isHost : Bool) (mdln softrev : String)
    (st : CommState) (stream function system : Nat) : GemAction × CommState :=
  match st with
  | .WAIT_CRA =>
      if stream = 1 ∧ function = 13 then
        (.sendS1F14 system (if isHost then [] else [mdln, softrev]), .COMMUNICATING)
      else if stream = 1 ∧ function = 14 then (.ignore, .COMMUNICATING)
      else (.ignore, .WAIT_CRA)
  | .WAIT_DELAY => (.ignore, .WAIT_DELAY)
  | .COMMUNICATING => (.dispatchThread, .COMMUNICATING)
  | s => (.ignore, s)

/-- C5 counterexample: receiving S1F13 in the non-communicating state
`WAIT_DELAY` sends nothing and stays in `WAIT_DELAY` — no S1F14 reply and
no transition to `COMMUNICATING`, contradicting the claim for "any state
other than COMMUNICATING". -/
theorem gem_s1f13_wait_delay_counterexample :
    gem_on_hsms_packet_received false "secsgem" "0.1.0" .WAIT_DELAY 1 13 5 =
      (.ignore, .WAIT_DELAY) ∧
    (GemAction.ignore, CommState.WAIT_DELAY) ≠
      (.sendS1F14 5 ["secsgem", "0.1.0"], .COMMUNICATING) := by
  exact ⟨rfl, by decide⟩

/-- C5 (amended): receiving S1F13 while in `WAIT_CRA` sends an S1F14 reply
carrying COMMACK and the model/revision list (empty for a host) with the
inbound system id and transitions the communication state to
`COMMUNICATING`; in every other non-communicating state the packet
handler ignores the message. -/
theorem gem_s1f13_spec (isHost : Bool) (mdln softrev : String) (system : Nat) :
    gem_on_hsms_packet_received isHost mdln softrev .WAIT_CRA 1 13 system =
      (.sendS1F14 system (if isHost then [] else [mdln, softrev]), .COMMUNICATING)
    ∧ (∀ st : CommState, st ≠ .WAIT_CRA → st ≠ .COMMUNICATING →
        gem_on_hsms_packet_received isHost mdln softrev st 1 13 system =
          (.ignore, st)) := by
  constructor
  · rw [gem_on_hsms_packet_received, if_pos ⟨rfl, rfl⟩]
  · intro st h1 h2
    cases st <;> first | rfl | exact absurd rfl h1 | exact absurd rfl h2

/-- Witness for `gem_s1f13_spec` at equipment side, system 7, rejecting
state `NOT_COMMUNICATING`. -/
theorem gem_s1f13_spec_witness :
    (gem_on_hsms_packet_received false "secsgem" "0.1.0" .WAIT_CRA 1 13 7 =
      (.sendS1F14 7 (if false then [] else ["secsgem", "0.1.0"]), .COMMUNICATING))
    ∧ gem_on_hsms_packet_received false "secsgem" "0.1.0" .NOT_COMMUNICATING 1 13 7 =
      (.ignore, .NOT_COMMUNICATING) :=
  ⟨(gem_s1f13_spec false "secsgem" "0.1.0" 7).1,
    (gem_s1f13_spec false "secsgem" "0.1.0" 7).2 .NOT_COMMUNICATING
      (by decide) (by decide)⟩

/-! ## Request/response correlation (C6)

Source: `HsmsHandler.get_next_system_counter` (lines 12907-12919),
`_get_queue_for_system` / `_remove_queue` (lines 13107-13126),
`send_and_waitfor_response` (lines 13166-13197) and the queue delivery of
`on_connection_packet_received` (lines 13096-13099).  The correlation
table `_systemQueues` is an association list from system id to the queued
packets. -/

structure HsmsHandlerState where
  systemCounter : Nat
  systemQueues : List (Nat × List HsmsPacket)

/-- `get_next_system_counter`: increment, wrap to 0 above `2^31 - 1`,
return the new value. -/
def get_next_system_counter (st : HsmsHandlerState) : Nat × HsmsHandlerState :=
  let c := if st.systemCounter + 1 > 2 ^ 31 - 1 then 0 else st.systemCounter + 1
  (c, { st with systemCounter := c })

/-- `_get_queue_for_system`: `self._systemQueues[system_id] = queue.Queue()`
(insert or replace with a fresh empty queue). -/
def get_queue_for_system (qs : List (Nat × List HsmsPacket)) (sys : Nat) :
    List (Nat × List HsmsPacket) :=
  if qs.any (fun q => q.1 == sys) then
    qs.map (fun q => if q.1 == sys then (sys, []) else q)
  else qs ++ [(sys, [])]

/-- `_remove_queue`: `del self._systemQueues[system_id]`. -/
def remove_queue (qs : List (Nat × List HsmsPacket)) (sys : Nat) :
    List (Nat × List HsmsPacket) :=
  qs.filter (fun q => q.1 ≠ sys)

/-- Queue delivery of `on_connection_packet_received` (lines 13096-13099):
a packet whose `system` has a registered queue is appended to that queue
(`put_nowait`). -/
def deliver_to_queue (qs : List (Nat × List HsmsPacket)) (sys : Nat)
    (p : HsmsPacket) : List (Nat × List HsmsPacket) :=
  qs.map (fun q => if q.1 == sys then (q.1, q.2 ++ [p]) else q)

/-- `send_and_waitfor_response` (lines 13166-13197): take a fresh system
id, register its queue, send; on send failure remove the queue and return
`None`; otherwise wait on the queue with deadline T3 — `reply` stands for
the outcome of `response_queue.get(True, T3)`: the matching packet
delivered by `on_connection_packet_received`, or `none` when
`queue.Empty` is raised at the deadline — then remove the queue and
return the outcome. -/
def send_and_waitfor_response (st : HsmsHandlerState) (sendOk : Bool)
    (reply : Option HsmsPacket) : Option HsmsPacket × HsmsHandlerState :=
  let (sysId, st1) := get_next_system_counter st
  let st2 := { st1 with systemQueues := get_queue_for_system st1.systemQueues sysId }
  if sendOk = false then
    (none, { st2 with systemQueues := remove_queue st2.systemQueues sysId })
  else
    (reply, { st2 with systemQueues := remove_queue st2.systemQueues sysId })

theorem get_queue_fresh_length (qs : List (Nat × List HsmsPacket)) (sys : Nat)
    (hfresh : ∀ q ∈ qs, q.1 ≠ sys) :
    get_queue_for_system qs sys = qs ++ [(sys, [])] := by
  have hno : ¬(qs.any (fun q => q.1 == sys) = true) := by
    intro hcon
    rw [List.any_eq_true] at hcon
    obtain ⟨q, hq, hqeq⟩ := hcon
    exact hfresh q hq (by simpa using hqeq)
  rw [get_queue_for_system, if_neg hno]

theorem remove_queue_fresh (qs : List (Nat × List HsmsPacket)) (sys : Nat)
    (hfresh : ∀ q ∈ qs, q.1 ≠ sys) :
    remove_queue (qs ++ [(sys, [])]) sys = qs := by
  rw [remove_queue, List.filter_append]
  have h1 : qs.filter (fun q => q.1 ≠ sys) = qs := by
    rw [List.filter_eq_self]
    intro q hq
    simpa using hfresh q hq
  have h2 : ([(sys, [])] : List (Nat × List HsmsPacket)).filter
      (fun q => q.1 ≠ sys) = [] := by simp
  rw [h1, h2, List.append_nil]

/-- C6: `send_and_waitfor_response` registers a correlation-queue entry
under the fresh system id (the table grows by exactly one), a matching
inbound reply is delivered to exactly that one waiter's queue (all other
entries unchanged), the call returns the reply packet — or `None` when no
matching reply arrives within T3 — and in either case the entry is
removed again, leaving the table as it was (one smaller than while
registered). -/
theorem send_and_waitfor_response_correlation (st : HsmsHandlerState)
    (sendOk : Bool) (reply : Option HsmsPacket)
    (hfresh : ∀ q ∈ st.systemQueues, q.1 ≠ (get_next_system_counter st).1) :
    ((send_and_waitfor_response st sendOk reply).1 =
      if sendOk then reply else none)
    ∧ (send_and_waitfor_response st sendOk reply).2.systemQueues = st.systemQueues
    ∧ (get_queue_for_system st.systemQueues (get_next_system_counter st).1).length =
        st.systemQueues.length + 1
    ∧ (∀ (qs : List (Nat × List HsmsPacket)) (sys : Nat) (p : HsmsPacket)
        (waiting : List HsmsPacket), (sys, waiting) ∈ qs →
        ((sys, waiting ++ [p]) ∈ deliver_to_queue qs sys p ∧
          ∀ q ∈ qs, q.1 ≠ sys → q ∈ deliver_to_queue qs sys p)) := by
  have hq1 : get_queue_for_system st.systemQueues (get_next_system_counter st).1 =
      st.systemQueues ++ [((get_next_system_counter st).1, [])] :=
    get_queue_fresh_length st.systemQueues _ hfresh
  have hq2 : remove_queue (st.systemQueues ++ [((get_next_system_counter st).1, [])])
      (get_next_system_counter st).1 = st.systemQueues :=
    remove_queue_fresh st.systemQueues _ hfresh
  have hqueues : ∀ b r, ((send_and_waitfor_response st b r).2).systemQueues =
      remove_queue (get_queue_for_system st.systemQueues
        (get_next_system_counter st).1) (get_next_system_counter st).1 := by
    intro b r
    cases b <;> rfl
  refine ⟨?_, ?_, ?_, ?_⟩
  · cases sendOk <;> rfl
  · rw [hqueues, hq1, hq2]
  · rw [hq1, List.length_append, List.length_singleton]
  · intro qs sys p waiting hmem
    constructor
    · rw [deliver_to_queue]
      have hmap := List.mem_map_of_mem
        (fun q : Nat × List HsmsPacket => if q.1 == sys then (q.1, q.2 ++ [p]) else q)
        hmem
      simpa using hmap
    · intro q hq hne
      rw [deliver_to_queue]
      have hmap := List.mem_map_of_mem
        (fun q : Nat × List HsmsPacket => if q.1 == sys then (q.1, q.2 ++ [p]) else q)
        hq
      have hid : (if (q.1 == sys) = true then (q.1, q.2 ++ [p]) else q) = q := by
        rw [if_neg]
        simpa using hne
      simpa only [hid] using hmap

/-- Witness for `send_and_waitfor_response_correlation` at a concrete
state with one outstanding entry (system 3) and counter 4: the new system
id 5 is fresh, the reply is returned and the table is restored. -/
theorem send_and_waitfor_response_correlation_witness :
    (∀ q ∈ (HsmsHandlerState.mk 4 [(3, [])]).systemQueues,
      q.1 ≠ (get_next_system_counter (HsmsHandlerState.mk 4 [(3, [])])).1)
    ∧ ((send_and_waitfor_response (HsmsHandlerState.mk 4 [(3, [])]) true
        (some ⟨⟨0xFFFF, 0, 0, 0, 6, 5, false⟩, []⟩)).1 =
      if true then some (⟨⟨0xFFFF, 0, 0, 0, 6, 5, false⟩, []⟩ : HsmsPacket)
      else none) := by
  have hfresh : ∀ q ∈ (HsmsHandlerState.mk 4 [(3, [])]).systemQueues,
      q.1 ≠ (get_next_system_counter (HsmsHandlerState.mk 4 [(3, [])])).1 := by
    intro q hq
    simp only [List.mem_singleton] at hq
    subst hq
    decide
  exact ⟨hfresh, (send_and_waitfor_response_correlation
    (HsmsHandlerState.mk 4 [(3, [])]) true
    (some ⟨⟨0xFFFF, 0, 0, 0, 6, 5, false⟩, []⟩) hfresh).1⟩

/-! ## Equipment-constant write, S2F15 → S2F16 (C3, C10)

Source: class `EquipmentConstant` (lines 14204-14219), `_set_ec_value`
(lines 14729-14738) and `GemEquipmentHandler._on_s02f15` (lines
14761-14786).  The handler walks the decoded message; an unregistered
ECID sets `eac = 1`, a value below a defined `min_value` or above a
defined `max_value` sets `eac = 3`; only when `eac` stayed 0 are all
supplied values written.  The equipment-constant dictionary is modelled
as a list keyed by integer ECID; a message item is the pair (ECID,
ECV). -/

structure EquipmentConstant where
  ecid : Nat
  minValue : Option Int
  maxValue : Option Int
  useCallback : Bool
  value : Int
deriving DecidableEq

/-- Dictionary lookup `self._equipment_constants[ecid]`. -/
def lookupEC (constants : List EquipmentConstant) (ecid : Nat) :
    Option EquipmentConstant :=
  constants.find? (fun ec => ec.ecid == ecid)

/-- Per-item EAC update of `_on_s02f15` for a registered constant: a
defined `min_value` above the value sets 3, then a defined `max_value`
below the value sets 3. -/
def s02f15_step (ec : EquipmentConstant) (ecv : Int) (eac : Nat) : Nat :=
  match ec.maxValue with
  | some m =>
      if ecv > m then 3
      else match ec.minValue with
        | some m2 => if ecv < m2 then 3 else eac
        | none => eac
  | none => match ec.minValue with
      | some m2 => if ecv < m2 then 3 else eac
      | none => eac

/-- EAC loop of `_on_s02f15` (lines 14766-14780): per message item,
unknown ECID sets 1; a registered one updates via `s02f15_step`. -/
def s02f15_eac (constants : List EquipmentConstant) :
    List (Nat × Int) → Nat → Nat
  | [], eac => eac
  | (ecid, ecv) :: rest, eac =>
      match lookupEC constants ecid with
      | none => s02f15_eac constants rest 1
      | some constant => s02f15_eac constants rest (s02f15_step constant ecv eac)

/-- `_set_ec_value` (lines 14729-14738) on the dictionary value: with a
callback the update goes to `on_ec_value_update` and the stored value is
untouched, otherwise `ec.value = value`.  (The live-update of the special
ECIDs 1 and 2 onto handler attributes is outside the dictionary.) -/
def set_ec_value (ec : EquipmentConstant) (v : Int) : EquipmentConstant :=
  if ec.useCallback then ec else { ec with value := v }

/-- Write loop of `_on_s02f15` (lines 14782-14784), run only when
`eac == 0`. -/
def writeECs (constants : List EquipmentConstant) :
    List (Nat × Int) → List EquipmentConstant
  | [] => constants
  | (ecid, ecv) :: rest =>
      writeECs (constants.map fun ec =>
        if ec.ecid == ecid then set_ec_value ec ecv else ec) rest

/-- `_on_s02f15`: compute EAC over the message, write all values only when
it stayed 0, reply S2F16 with the EAC. -/
def on_s02f15 (constants : List EquipmentConstant) (message : List (Nat × Int)) :
    Nat × List EquipmentConstant :=
  let eac := s02f15_eac constants message 0
  if eac = 0 then (eac, writeECs constants message)
  else (eac, constants)

/-- A supplied item whose value lies strictly outside a defined bound of
its registered equipment constant. -/
def ecOutOfRange (constants : List EquipmentConstant) (p : Nat × Int) : Prop :=
  ∃ ec, lookupEC constants p.1 = some ec ∧
    ((∃ m, ec.minValue = some m ∧ p.2 < m) ∨ (∃ m, ec.maxValue = some m ∧ p.2 > m))

/-- A supplied item inside the (defined) bounds of its constant, when
registered. -/
def ecInRange (constants : List EquipmentConstant) (p : Nat × Int) : Prop :=
  ∀ ec, lookupEC constants p.1 = some ec →
    (∀ m, ec.minValue = some m → m ≤ p.2) ∧ (∀ m, ec.maxValue = some m → p.2 ≤ m)

theorem s02f15_step_in (ec : EquipmentConstant) (ecv : Int) (eac : Nat)
    (hmin : ∀ m, ec.minValue = some m → m ≤ ecv)
    (hmax : ∀ m, ec.maxValue = some m → ecv ≤ m) :
    s02f15_step ec ecv eac = eac := by
  rw [s02f15_step]
  cases hM : ec.maxValue with
  | none =>
      dsimp only
      cases hm : ec.minValue with
      | none => rfl
      | some m2 =>
          dsimp only
          have := hmin m2 hm
          rw [if_neg (by omega)]
  | some M =>
      dsimp only
      have := hmax M hM
      rw [if_neg (by omega)]
      cases hm : ec.minValue with
      | none => rfl
      | some m2 =>
          dsimp only
          have := hmin m2 hm
          rw [if_neg (by omega)]

theorem s02f15_step_out (ec : EquipmentConstant) (ecv : Int) (eac : Nat)
    (hviol : (∃ m, ec.minValue = some m ∧ ecv < m) ∨
      (∃ m, ec.maxValue = some m ∧ ecv > m)) :
    s02f15_step ec ecv eac = 3 := by
  rw [s02f15_step]
  rcases hviol with ⟨m, hm, hlt⟩ | ⟨m, hm, hgt⟩
  · cases hM : ec.maxValue with
    | none =>
        dsimp only
        rw [hm]
        dsimp only
        rw [if_pos hlt]
    | some M =>
        dsimp only
        by_cases hg : ecv > M
        · rw [if_pos hg]
        · rw [if_neg hg, hm]
          dsimp only
          rw [if_pos hlt]
  · rw [hm]
    dsimp only
    rw [if_pos hgt]

theorem s02f15_eac_in_range (constants : List EquipmentConstant)
    (msg : List (Nat × Int))
    (hreg : ∀ p ∈ msg, (lookupEC constants p.1).isSome)
    (hin : ∀ p ∈ msg, ecInRange constants p) :
    ∀ eac, s02f15_eac constants msg eac = eac := by
  induction msg with
  | nil => intro eac; rfl
  | cons p rest ih =>
      intro eac
      obtain ⟨ecid, ecv⟩ := p
      have hr := hreg (ecid, ecv) (List.mem_cons_self _ _)
      rw [Option.isSome_iff_exists] at hr
      obtain ⟨ec, hec⟩ := hr
      have hinp := hin (ecid, ecv) (List.mem_cons_self _ _) ec hec
      rw [s02f15_eac, hec]
      dsimp only
      rw [s02f15_step_in ec ecv eac (fun m hm => hinp.1 m hm) (fun m hm => hinp.2 m hm)]
      exact ih (fun q hq => hreg q (List.mem_cons_of_mem _ hq))
        (fun q hq => hin q (List.mem_cons_of_mem _ hq)) eac

theorem s02f15_eac_out_of_range (constants : List EquipmentConstant)
    (msg : List (Nat × Int))
    (hreg : ∀ p ∈ msg, (lookupEC constants p.1).isSome)
    (hout : ∃ p ∈ msg, ecOutOfRange constants p) :
    ∀ eac, s02f15_eac constants msg eac = 3 := by
  induction msg with
  | nil => simp at hout
  | cons p rest ih =>
      intro eac
      obtain ⟨ecid, ecv⟩ := p
      have hr := hreg (ecid, ecv) (List.mem_cons_self _ _)
      rw [Option.isSome_iff_exists] at hr
      obtain ⟨ec, hec⟩ := hr
      rw [s02f15_eac, hec]
      dsimp only
      by_cases hrest : ∃ q ∈ rest, ecOutOfRange constants q
      · exact ih (fun q hq => hreg q (List.mem_cons_of_mem _ hq)) hrest _
      · have hheadout : ecOutOfRange constants (ecid, ecv) := by
          obtain ⟨q, hq, hqout⟩ := hout
          rcases List.mem_cons.1 hq with rfl | hq2
          · exact hqout
          · exact absurd ⟨q, hq2, hqout⟩ hrest
        obtain ⟨ec2, hec2, hviol⟩ := hheadout
        rw [hec] at hec2
        have hec2eq : ec2 = ec := (Option.some.inj hec2).symm
        subst hec2eq
        rw [s02f15_step_out ec2 ecv eac hviol]
        have hinrest : ∀ q ∈ rest, ecInRange constants q := by
          intro q hq ecq hecq
          constructor
          · intro m hmq
            by_contra hcon
            exact hrest ⟨q, hq, ecq, hecq, Or.inl ⟨m, hmq, by omega⟩⟩
          · intro m hmq
            by_contra hcon
            exact hrest ⟨q, hq, ecq, hecq, Or.inr ⟨m, hmq, by omega⟩⟩
        exact s02f15_eac_in_range constants rest
          (fun q hq => hreg q (List.mem_cons_of_mem _ hq)) hinrest 3

theorem s02f15_eac_unknown (constants : List EquipmentConstant)
    (msg : List (Nat × Int))
    (hin : ∀ p ∈ msg, ecInRange constants p)
    (hunk : ∃ p ∈ msg, lookupEC constants p.1 = none) :
    ∀ eac, s02f15_eac constants msg eac = 1 := by
  induction msg with
  | nil => simp at hunk
  | cons p rest ih =>
      intro eac
      obtain ⟨ecid, ecv⟩ := p
      rw [s02f15_eac]
      cases hec : lookupEC constants ecid with
      | none =>
          by_cases hrest : ∃ q ∈ rest, lookupEC constants q.1 = none
          · exact ih (fun q hq => hin q (List.mem_cons_of_mem _ hq)) hrest 1
          · have hregrest : ∀ q ∈ rest, (lookupEC constants q.1).isSome := by
              intro q hq
              cases hq2 : lookupEC constants q.1 with
              | none => exact absurd ⟨q, hq, hq2⟩ hrest
              | some _ => rfl
            exact s02f15_eac_in_range constants rest hregrest
              (fun q hq => hin q (List.mem_cons_of_mem _ hq)) 1
      | some ec =>
          dsimp only
          have hinp := hin (ecid, ecv) (List.mem_cons_self _ _) ec hec
          rw [s02f15_step_in ec ecv eac (fun m hm => hinp.1 m hm)
            (fun m hm => hinp.2 m hm)]
          have hrest : ∃ q ∈ rest, lookupEC constants q.1 = none := by
            obtain ⟨q, hq, hqnone⟩ := hunk
            rcases List.mem_cons.1 hq with rfl | hq2
            · rw [hec] at hqnone; exact absurd hqnone (by simp)
            · exact ⟨q, hq2, hqnone⟩
          exact ih (fun q hq => hin q (List.mem_cons_of_mem _ hq)) hrest eac

theorem set_ec_value_ecid (ec : EquipmentConstant) (v : Int) :
    (set_ec_value ec v).ecid = ec.ecid := by
  rw [set_ec_value]
  split <;> rfl

theorem lookupEC_ecid (constants : List EquipmentConstant) (ecid : Nat)
    (ec : EquipmentConstant) (h : lookupEC constants ecid = some ec) :
    ec.ecid = ecid := by
  have := List.find?_some h
  simpa using this

theorem lookupEC_update (constants : List EquipmentConstant)
    (ecid2 : Nat) (v : Int) (ecid : Nat) :
    lookupEC (constants.map fun ec =>
        if ec.ecid == ecid2 then set_ec_value ec v else ec) ecid =
      (lookupEC constants ecid).map
        (fun ec => if ec.ecid == ecid2 then set_ec_value ec v else ec) := by
  have hp : ((fun ec : EquipmentConstant => ec.ecid == ecid) ∘
      (fun ec => if ec.ecid == ecid2 then set_ec_value ec v else ec)) =
      fun ec => ec.ecid == ecid := by
    funext ec
    simp only [Function.comp_apply]
    by_cases h : (ec.ecid == ecid2) = true
    · rw [if_pos h, set_ec_value_ecid]
    · rw [if_neg h]
  rw [lookupEC, lookupEC, List.find?_map, hp]

theorem writeECs_not_mem (constants : List EquipmentConstant)
    (msg : List (Nat × Int)) (ecid : Nat) (hnot : ∀ p ∈ msg, p.1 ≠ ecid) :
    lookupEC (writeECs constants msg) ecid = lookupEC constants ecid := by
  induction msg generalizing constants with
  | nil => rfl
  | cons p rest ih =>
      obtain ⟨e1, v1⟩ := p
      rw [writeECs]
      rw [ih _ (fun q hq => hnot q (List.mem_cons_of_mem _ hq))]
      rw [lookupEC_update]
      cases hl : lookupEC constants ecid with
      | none => rfl
      | some ec =>
          have hecid := lookupEC_ecid _ _ _ hl
          have hne : e1 ≠ ecid := hnot (e1, v1) (List.mem_cons_self _ _)
          simp only [Option.map_some']
          rw [if_neg (by simp [hecid]; omega)]

theorem writeECs_mem (constants : List EquipmentConstant)
    (msg : List (Nat × Int)) (hnodup : (msg.map Prod.fst).Nodup) :
    ∀ ecid v, (ecid, v) ∈ msg →
      lookupEC (writeECs constants msg) ecid =
        (lookupEC constants ecid).map (fun ec => set_ec_value ec v) := by
  induction msg generalizing constants with
  | nil => intro _ _ h; simp at h
  | cons p rest ih =>
      intro ecid v hmem
      obtain ⟨e1, v1⟩ := p
      simp only [List.map_cons, List.nodup_cons] at hnodup
      obtain ⟨hhead, htail⟩ := hnodup
      rw [writeECs]
      rcases List.mem_cons.1 hmem with heq | hmem2
      · injection heq with h1 h2
        subst h1
        subst h2
        have hnot : ∀ q ∈ rest, q.1 ≠ ecid := by
          intro q hq hcon
          exact hhead (hcon ▸ List.mem_map_of_mem Prod.fst hq)
        rw [writeECs_not_mem _ _ _ hnot, lookupEC_update]
        cases hl : lookupEC constants ecid with
        | none => rfl
        | some ec =>
            have hecid := lookupEC_ecid _ _ _ hl
            simp only [Option.map_some']
            rw [if_pos (by simp [hecid])]
      · have hne : ecid ≠ e1 := by
          intro h
          subst h
          exact hhead (List.mem_map_of_mem Prod.fst hmem2)
        rw [ih _ htail ecid v hmem2, lookupEC_update]
        cases hl : lookupEC constants ecid with
        | none => rfl
        | some ec =>
            have hecid := lookupEC_ecid _ _ _ hl
            simp only [Option.map_some']
            rw [if_neg (by simp [hecid]; omega)]

/-- C3: when every supplied ECID is a registered equipment constant, an
S2F15 write carrying some value strictly outside a defined `[min, max]`
bound of its constant replies EAC = 3 and leaves every equipment-constant
value unmodified, and a write whose values are all inside the bounds (the
bounds inclusive) replies EAC = 0 and writes every supplied value: each
supplied non-callback constant ends holding the supplied value. -/
theorem on_s02f15_range_check (constants : List EquipmentConstant)
    (message : List (Nat × Int))
    (hreg : ∀ p ∈ message, (lookupEC constants p.1).isSome) :
    ((∃ p ∈ message, ecOutOfRange constants p) →
        (on_s02f15 constants message).1 = 3 ∧
        (on_s02f15 constants message).2 = constants)
    ∧ ((∀ p ∈ message, ecInRange constants p) →
        (on_s02f15 constants message).1 = 0 ∧
        (on_s02f15 constants message).2 = writeECs constants message ∧
        ((message.map Prod.fst).Nodup →
          ∀ p ∈ message, ∀ ec0, lookupEC constants p.1 = some ec0 →
            ec0.useCallback = false →
            lookupEC ((on_s02f15 constants message).2) p.1 =
              some { ec0 with value := p.2 })) := by
  constructor
  · intro hout
    have heac := s02f15_eac_out_of_range constants message hreg hout 0
    simp only [on_s02f15]
    rw [heac]
    norm_num
  · intro hin
    have heac := s02f15_eac_in_range constants message hreg hin 0
    have hres : on_s02f15 constants message = (0, writeECs constants message) := by
      simp only [on_s02f15]
      rw [heac]
      norm_num
    refine ⟨by rw [hres], by rw [hres], ?_⟩
    intro hnodup p hp ec0 hec0 hcb
    rw [hres]
    have hw := writeECs_mem constants message hnodup p.1 p.2 (by simpa using hp)
    rw [hw, hec0]
    simp only [Option.map_some']
    rw [set_ec_value, if_neg (by rw [hcb]; simp)]

/-- Witness for `on_s02f15_range_check`: one constant (ECID 1, min 10,
max 120, value 10); the out-of-range write `[(1, 5)]` replies EAC 3
leaving the dictionary unchanged. -/
theorem on_s02f15_range_check_witness :
    (∀ p ∈ [((1 : Nat), (5 : Int))],
      (lookupEC [⟨1, some 10, some 120, false, 10⟩] p.1).isSome)
    ∧ (on_s02f15 [⟨1, some 10, some 120, false, 10⟩] [(1, 5)]).1 = 3
    ∧ (on_s02f15 [⟨1, some 10, some 120, false, 10⟩] [(1, 5)]).2 =
        [⟨1, some 10, some 120, false, 10⟩] := by
  have hreg : ∀ p ∈ [((1 : Nat), (5 : Int))],
      (lookupEC [⟨1, some 10, some 120, false, 10⟩] p.1).isSome := by decide
  have hout : ∃ p ∈ [((1 : Nat), (5 : Int))],
      ecOutOfRange [⟨1, some 10, some 120, false, 10⟩] p :=
    ⟨(1, 5), List.mem_singleton_self _,
      ⟨1, some 10, some 120, false, 10⟩, rfl, Or.inl ⟨10, rfl, by norm_num⟩⟩
  exact ⟨hreg, (on_s02f15_range_check [⟨1, some 10, some 120, false, 10⟩]
    [(1, 5)] hreg).1 hout⟩

/-- C10: an S2F15 write in which some supplied ECID is not a registered
equipment constant (every registered one being in range) replies EAC = 1,
and no equipment-constant value is written. -/
theorem on_s02f15_unknown_ecid (constants : List EquipmentConstant)
    (message : List (Nat × Int))
    (hunk : ∃ p ∈ message, lookupEC constants p.1 = none)
    (hin : ∀ p ∈ message, ecInRange constants p) :
    (on_s02f15 constants message).1 = 1 ∧
    (on_s02f15 constants message).2 = constants := by
  have heac := s02f15_eac_unknown constants message hin hunk 0
  simp only [on_s02f15]
  rw [heac]
  norm_num

/-- Witness for `on_s02f15_unknown_ecid`: writing ECID 2 (unregistered)
with the only registered constant being ECID 1 replies EAC 1 and changes
nothing. -/
theorem on_s02f15_unknown_ecid_witness :
    (on_s02f15 [⟨1, some 10, some 120, false, 10⟩] [((2 : Nat), (5 : Int))]).1 = 1
    ∧ (on_s02f15 [⟨1, some 10, some 120, false, 10⟩] [((2 : Nat), (5 : Int))]).2 =
        [⟨1, some 10, some 120, false, 10⟩] := by
  have hunk : ∃ p ∈ [((2 : Nat), (5 : Int))],
      lookupEC [⟨1, some 10, some 120, false, 10⟩] p.1 = none :=
    ⟨(2, 5), List.mem_singleton_self _, rfl⟩
  have hin : ∀ p ∈ [((2 : Nat), (5 : Int))],
      ecInRange [⟨1, some 10, some 120, false, 10⟩] p := by
    intro p hp ec hec
    simp only [List.mem_singleton] at hp
    subst hp
    exact Option.noConfusion hec
  exact on_s02f15_unknown_ecid [⟨1, some 10, some 120, false, 10⟩]
    [(2, 5)] hunk hin

end Secsgem
